import Mathlib

/-!
Verification of the `usc_kommentatoren` scraping library.

The Python modules `report.py`, `lineups.py` and `mvp.py` are shallowly
embedded below: strings become `List Char` (wrapped in `String` at the
interface where convenient), `datetime` values become an explicit record,
`None` becomes `Option`, a raised exception becomes `none`/`Option` at the
embedded function boundary, and Python dicts that the claims inspect become
association lists.  Regular expressions are embedded as deterministic
scanners; wherever the original pattern could in principle backtrack, the
accompanying comment records why the scanner below computes the same match.
-/

namespace USC

/-! ## Character classes and low-level string helpers -/

/-- Whitespace as recognised by Python `str.strip`, `str.split` and the `\s`
class of the `re` module on the characters that occur in this code base
(ASCII whitespace plus NBSP and NEL). -/
def isPySpace (c : Char) : Bool :=
  c = ' ' || c = '\t' || c = '\n' || c = '\r' || c = '\x0b' || c = '\x0c'
    || c = '\x85' || c = '\xa0'

/-- Lowercase ASCII letters and digits, the classes kept by the regex
`[^a-z0-9]` of `normalize_name`. -/
def isLowerAlnum (c : Char) : Bool :=
  ('a' ≤ c && c ≤ 'z') || ('0' ≤ c && c ≤ '9')

/-- Word characters for the `\b` boundary of Python regexes, modelled on the
alphabet that actually occurs in the scraped tables: ASCII word characters
plus the German letters. -/
def isWordChar (c : Char) : Bool :=
  ('a' ≤ c && c ≤ 'z') || ('A' ≤ c && c ≤ 'Z') || ('0' ≤ c && c ≤ '9') || c = '_'
    || c = 'ä' || c = 'ö' || c = 'ü' || c = 'Ä' || c = 'Ö' || c = 'Ü' || c = 'ß'

/-- Numeric value of a list of decimal digit characters (most significant
first), the way `int()` reads the digit groups captured by the regexes. -/
def digitsToNat (cs : List Char) : Nat :=
  cs.foldl (fun acc c => acc * 10 + (c.toNat - '0'.toNat)) 0

/-- Python `str.strip()` on a list of characters. -/
def pyStrip (cs : List Char) : List Char :=
  ((cs.dropWhile isPySpace).reverse.dropWhile isPySpace).reverse

/-- Python `str.strip()` on a `String`. -/
def pyStripStr (s : String) : String :=
  String.mk (pyStrip s.data)

/-- Accumulator worker for `pySplitWs`: `word` holds the current word in
reverse order. -/
def pySplitWsGo : List Char → List Char → List (List Char)
  | word, [] => if word.isEmpty then [] else [word.reverse]
  | word, c :: rest =>
    if isPySpace c then
      if word.isEmpty then pySplitWsGo [] rest
      else word.reverse :: pySplitWsGo [] rest
    else pySplitWsGo (c :: word) rest

/-- Python `str.split()` without arguments: split on runs of whitespace,
dropping empty pieces. -/
def pySplitWs (cs : List Char) : List (List Char) :=
  pySplitWsGo [] cs

/-- Substring test `p in s` of Python, and the carrier of every
`str.replace`/`re` occurrence argument below: does `p` occur (contiguously)
in `s`? -/
def occursIn (p : List Char) : List Char → Bool
  | [] => p.isEmpty
  | c :: rest => p.isPrefixOf (c :: rest) || occursIn p rest

/-- Fuelled worker for `replaceAll`; the fuel (initially the length of the
string, which bounds the number of steps) only makes the recursion
structural. -/
def replaceAllGo (p r : List Char) : Nat → List Char → List Char
  | _, [] => []
  | 0, s => s
  | fuel + 1, c :: rest =>
    if p.isPrefixOf (c :: rest) then
      r ++ replaceAllGo p r fuel (rest.drop (p.length - 1))
    else
      c :: replaceAllGo p r fuel rest

/-- Python `str.replace(p, r)`: replace every non-overlapping occurrence of
`p` from the left, continuing after the replaced text. -/
def replaceAll (p r s : List Char) : List Char :=
  replaceAllGo p r s.length s

/-- Fuelled worker for `squashRuns`. -/
def squashRunsGo (bad : Char → Bool) : Nat → List Char → List Char
  | _, [] => []
  | 0, s => s
  | fuel + 1, c :: rest =>
    if bad c then ' ' :: squashRunsGo bad fuel (rest.dropWhile bad)
    else c :: squashRunsGo bad fuel rest

/-- Generic embedding of `re.sub(cls+, " ", s)` for a character class `bad`:
every maximal run of `bad` characters becomes a single space. -/
def squashRuns (bad : Char → Bool) (s : List Char) : List Char :=
  squashRunsGo bad s.length s

/-! ## `normalize_name` (report.py) -/

/-- Python `str.lower()` restricted to the alphabet this code base meets:
ASCII letters plus the accented Latin letters that `normalize_name` expands
afterwards.  Characters outside this alphabet are untouched here; they are
erased later by the `[^a-z0-9]` substitution, so the theorems below do not
depend on this restriction. -/
def pyLowerChar (c : Char) : Char :=
  if 'A' ≤ c && c ≤ 'Z' then Char.ofNat (c.toNat + 32)
  else if c = 'Ä' then 'ä' else if c = 'Ö' then 'ö' else if c = 'Ü' then 'ü'
  else if c = 'Á' then 'á' else if c = 'À' then 'à' else if c = 'Â' then 'â'
  else if c = 'É' then 'é' else if c = 'È' then 'è' else if c = 'Ê' then 'ê'
  else if c = 'Í' then 'í' else if c = 'Ì' then 'ì' else if c = 'Î' then 'î'
  else if c = 'Ó' then 'ó' else if c = 'Ò' then 'ò' else if c = 'Ô' then 'ô'
  else if c = 'Ú' then 'ú' else if c = 'Ù' then 'ù' else if c = 'Û' then 'û'
  else c

/-- The sequence of single-character `str.replace` calls of `normalize_name`
(`ä -> ae`, `ö -> oe`, `ü -> ue`, `ß -> ss`, and the plain-vowel accents).
Every pattern is one character, every replacement is plain ASCII, and no
pattern occurs in any replacement, so the chain of sequential replaces is
exactly this character-wise expansion. -/
def accentExpand (c : Char) : List Char :=
  if c = 'ä' then ['a', 'e'] else if c = 'ö' then ['o', 'e']
  else if c = 'ü' then ['u', 'e'] else if c = 'ß' then ['s', 's']
  else if c = 'á' || c = 'à' || c = 'â' then ['a']
  else if c = 'é' || c = 'è' || c = 'ê' then ['e']
  else if c = 'í' || c = 'ì' || c = 'î' then ['i']
  else if c = 'ó' || c = 'ò' || c = 'ô' then ['o']
  else if c = 'ú' || c = 'ù' || c = 'û' then ['u']
  else [c]

/-- Character-list core of `normalize_name` (report.py): lower-case, expand
the accents, rewrite `muenster`/`mnster` to `munster`, substitute every
`[^a-z0-9]+` run by a space, collapse `\s+` runs, and strip. -/
def normalizeNameChars (cs : List Char) : List Char :=
  pyStrip (squashRuns isPySpace (squashRuns (fun c => !isLowerAlnum c)
    (replaceAll "mnster".data "munster".data
      (replaceAll "muenster".data "munster".data
        ((cs.map pyLowerChar).flatMap accentExpand)))))

/-- Embedding of `normalize_name` (report.py). -/
def normalize_name (s : String) : String :=
  String.mk (normalizeNameChars s.data)

/-- Shape stated by the claim for `normalize_name` output: only lowercase
ASCII letters, digits and single interior spaces, with no leading or
trailing space. -/
def WellFormedName (t : List Char) : Prop :=
  (∀ c ∈ t, isLowerAlnum c = true ∨ c = ' ')
    ∧ List.Chain' (fun a b => ¬(a = ' ' ∧ b = ' ')) t
    ∧ (∀ c ∈ t.head?, c ≠ ' ') ∧ (∀ c ∈ t.getLast?, c ≠ ' ')

/-! ## Dates (`datetime`) -/

/-- Gregorian leap-year test used by `datetime`. -/
def isLeapYear (y : Nat) : Bool :=
  y % 4 = 0 && (y % 100 ≠ 0 || y % 400 = 0)

/-- Number of days of month `m` in year `y` as validated by the `datetime`
constructor. -/
def daysInMonth (y m : Nat) : Nat :=
  if m = 2 then (if isLeapYear y then 29 else 28)
  else if m = 4 || m = 6 || m = 9 || m = 11 then 30
  else 31

/-- Timezone key of `BERLIN_TZ = ZoneInfo(BERLIN_TIMEZONE_NAME)` in
`report.py`. -/
def BERLIN_TZ : String := "Europe/Berlin"

/-- Shallow model of an aware-or-naive `datetime.datetime` value. -/
structure PyDateTime where
  year : Nat
  month : Nat
  day : Nat
  hour : Nat
  minute : Nat
  second : Nat
  tzinfo : Option String
deriving DecidableEq, Repr

/-- Argument validation of the `datetime(year, month, day, hour, minute,
second)` constructor: `ValueError` (here `false`) outside these ranges. -/
def datetimeValid (y m d h mi s : Nat) : Bool :=
  1 ≤ y && y ≤ 9999 && 1 ≤ m && m ≤ 12 && 1 ≤ d && d ≤ daysInMonth y m
    && h ≤ 23 && mi ≤ 59 && s ≤ 59

/-! ## `parse_kickoff` (report.py) -/

/-- One bounded numeric directive of the fixed `strptime` format
`%d.%m.%Y %H:%M:%S`.  CPython compiles `%d` to `3[01]|[12]\d|0[1-9]|[1-9]`,
`%m` to `1[0-2]|0[1-9]|[1-9]`, `%H` to `2[0-3]|[0-1]\d|\d`, `%M` to
`[0-5]\d|\d` and `%S` to `6[0-1]|[0-5]\d|\d`.  Every alternative consumes
only digits and every following separator of the format is a non-digit, so
the backtracking engine accepts exactly: the maximal digit run has length
1 or 2 and its value lies in the directive's range. -/
def parseNum2 (lo hi : Nat) (cs : List Char) : Option (Nat × List Char) :=
  let run := cs.takeWhile Char.isDigit
  let rest := cs.dropWhile Char.isDigit
  if 1 ≤ run.length ∧ run.length ≤ 2 ∧ lo ≤ digitsToNat run ∧ digitsToNat run ≤ hi then
    some (digitsToNat run, rest)
  else none

/-- The `%Y` directive: CPython compiles it to `\d\d\d\d`; a digit after the
four would collide with the following whitespace of the format, so the
maximal run must have exactly four digits. -/
def parseYear4 (cs : List Char) : Option (Nat × List Char) :=
  let run := cs.takeWhile Char.isDigit
  let rest := cs.dropWhile Char.isDigit
  if run.length = 4 then some (digitsToNat run, rest) else none

/-- One literal separator character of the format. -/
def expectChar (c : Char) : List Char → Option (List Char)
  | [] => none
  | d :: rest => if d = c then some rest else none

/-- The literal space of the format, which CPython rewrites to `\s+`. -/
def skipWs1 : List Char → Option (List Char)
  | [] => none
  | c :: rest =>
    if isPySpace c then some ((c :: rest).dropWhile isPySpace) else none

/-- Textual part of `datetime.strptime(s, "%d.%m.%Y %H:%M:%S")`: the match
of CPython's compiled pattern, required to consume the entire string (the
`len(data_string) != found.end()` check); the `datetime` range validation
follows separately in `parse_kickoff`. -/
def strptimeKickoffText (cs : List Char) :
    Option (Nat × Nat × Nat × Nat × Nat × Nat) := do
  let (d, cs1) ← parseNum2 1 31 cs
  let cs2 ← expectChar '.' cs1
  let (m, cs3) ← parseNum2 1 12 cs2
  let cs4 ← expectChar '.' cs3
  let (y, cs5) ← parseYear4 cs4
  let cs6 ← skipWs1 cs5
  let (h, cs7) ← parseNum2 0 23 cs6
  let cs8 ← expectChar ':' cs7
  let (mi, cs9) ← parseNum2 0 59 cs8
  let cs10 ← expectChar ':' cs9
  let (s, cs11) ← parseNum2 0 61 cs10
  if cs11 = [] then some (d, m, y, h, mi, s) else none

/-- The string `f"{date_str.strip()} {time_str.strip()}"` that
`parse_kickoff` hands to `strptime`. -/
def kickoffCombined (date_str time_str : String) : List Char :=
  pyStrip date_str.data ++ ' ' :: pyStrip time_str.data

/-- Embedding of `parse_kickoff` (report.py): `none` models the
`ValueError` that `strptime` raises on a failed textual match or an invalid
date; on success the Berlin timezone is attached via
`kickoff.replace(tzinfo=BERLIN_TZ)`. -/
def parse_kickoff (date_str time_str : String) : Option PyDateTime :=
  match strptimeKickoffText (kickoffCombined date_str time_str) with
  | none => none
  | some (d, m, y, h, mi, s) =>
    if datetimeValid y m d h mi s then
      some ⟨y, m, d, h, mi, s, some BERLIN_TZ⟩
    else none

/-- Spec-side reading of the C3 claim: the combined string decomposes into
day, month, 4-digit year, hour, minute and second digit groups of the
widths the format accepts, separated by dots, one whitespace run and
colons, and the values form a valid `datetime`. -/
def KickoffFormat (cs : List Char) : Prop :=
  ∃ (dd mm yyyy ws hh mi ss : List Char),
    cs = dd ++ '.' :: (mm ++ '.' :: (yyyy ++ (ws ++ (hh ++ ':' :: (mi ++ ':' :: ss)))))
    ∧ (∀ c ∈ dd, c.isDigit = true) ∧ 1 ≤ dd.length ∧ dd.length ≤ 2
    ∧ (∀ c ∈ mm, c.isDigit = true) ∧ 1 ≤ mm.length ∧ mm.length ≤ 2
    ∧ (∀ c ∈ yyyy, c.isDigit = true) ∧ yyyy.length = 4
    ∧ (∀ c ∈ ws, isPySpace c = true) ∧ 1 ≤ ws.length
    ∧ (∀ c ∈ hh, c.isDigit = true) ∧ 1 ≤ hh.length ∧ hh.length ≤ 2
    ∧ (∀ c ∈ mi, c.isDigit = true) ∧ 1 ≤ mi.length ∧ mi.length ≤ 2
    ∧ (∀ c ∈ ss, c.isDigit = true) ∧ 1 ≤ ss.length ∧ ss.length ≤ 2
    ∧ datetimeValid (digitsToNat yyyy) (digitsToNat mm) (digitsToNat dd)
        (digitsToNat hh) (digitsToNat mi) (digitsToNat ss) = true

/-! ## `parse_date_label` (report.py) -/

/-- The `\d{2,4}` year group of `DATE_PATTERN`, matched greedily: at least
two digits must be available; the group takes at most the first four digits
of the maximal run, and whatever follows (including further digits) is left
for the optional time group, whose first character is a comma, so the
greedy choice never needs revisiting. -/
def parseYear24 (cs : List Char) : Option (Nat × List Char) :=
  let run := cs.takeWhile Char.isDigit
  if 2 ≤ run.length then
    some (digitsToNat (run.take 4), run.drop 4 ++ cs.dropWhile Char.isDigit)
  else none

/-- The `\d{2}` minute group: exactly two digit characters. -/
def parseMin2 : List Char → Option (Nat × List Char)
  | a :: b :: rest =>
    if a.isDigit && b.isDigit then some (digitsToNat [a, b], rest) else none
  | _ => none

/-- The optional `,\s*(\d{1,2}):(\d{2})` time group of `DATE_PATTERN`;
`none` means the group matches empty (which never fails the overall
match). -/
def timeOptAt (cs : List Char) : Option (Nat × Nat) :=
  match expectChar ',' cs with
  | none => none
  | some cs1 =>
    match parseNum2 0 99 (cs1.dropWhile isPySpace) with
    | none => none
    | some (h, cs3) =>
      match expectChar ':' cs3 with
      | none => none
      | some cs4 =>
        match parseMin2 cs4 with
        | none => none
        | some (mi, _) => some (h, mi)

/-- Anchored match of `DATE_PATTERN` at one position.  The day and month
groups `\d{1,2}` are each followed by a literal dot, so they accept exactly
a maximal digit run of length one or two (`parseNum2` with the trivial
range `0..99`). -/
def matchDateAt (cs : List Char) : Option (Nat × Nat × Nat × Option (Nat × Nat)) := do
  let (d, cs1) ← parseNum2 0 99 cs
  let cs2 ← expectChar '.' cs1
  let (m, cs3) ← parseNum2 0 99 cs2
  let cs4 ← expectChar '.' cs3
  let (y, cs5) ← parseYear24 cs4
  some (d, m, y, timeOptAt cs5)

/-- Leftmost search of `DATE_PATTERN`, as `re.search` performs it. -/
def searchDate : List Char → Option (Nat × Nat × Nat × Option (Nat × Nat))
  | [] => none
  | c :: rest =>
    match matchDateAt (c :: rest) with
    | some res => some res
    | none => searchDate rest

/-- Two-digit years (below 100) are shifted into the 2000s. -/
def adjustYear (y : Nat) : Nat :=
  if y < 100 then y + 2000 else y

/-- Hour of the optional time group, defaulting to 0 when absent. -/
def optHour (t : Option (Nat × Nat)) : Nat :=
  match t with | some ht => ht.1 | none => 0

/-- Minute of the optional time group, defaulting to 0 when absent. -/
def optMinute (t : Option (Nat × Nat)) : Nat :=
  match t with | some ht => ht.2 | none => 0

/-- Embedding of `parse_date_label` (report.py): `None` when the pattern is
absent, and `None` via the `try/except ValueError` when the matched numbers
do not form a valid `datetime`; a missing time group defaults to 00:00. -/
def parse_date_label (s : String) : Option PyDateTime :=
  match searchDate s.data with
  | none => none
  | some (d, m, y, t) =>
    if datetimeValid (adjustYear y) m d (optHour t) (optMinute t) 0 then
      some ⟨adjustYear y, m, d, optHour t, optMinute t, 0, some BERLIN_TZ⟩
    else none

/-- Spec-side reading of "contains a day.month.year pattern": some substring
is a 1-2 digit day, a dot, a 1-2 digit month, a dot and a 2-4 digit year
(the year group being greedy, a longer digit tail simply stays in the
remainder). -/
def HasDatePattern (cs : List Char) : Prop :=
  ∃ pre dd mm yy post,
    cs = pre ++ (dd ++ '.' :: (mm ++ '.' :: (yy ++ post)))
    ∧ (∀ c ∈ dd, c.isDigit = true) ∧ 1 ≤ dd.length ∧ dd.length ≤ 2
    ∧ (∀ c ∈ mm, c.isDigit = true) ∧ 1 ≤ mm.length ∧ mm.length ≤ 2
    ∧ (∀ c ∈ yy, c.isDigit = true) ∧ 2 ≤ yy.length ∧ yy.length ≤ 4

/-! ## `_parse_result_text` (report.py) -/

/-- Embedding of the frozen dataclass `MatchResult` (report.py). -/
structure MatchResult where
  score : String
  total_points : Option String
  sets : List String
deriving DecidableEq, Repr

/-- The `\d+:\d+` sub-pattern of `RESULT_PATTERN`: both digit runs are
greedy and followed by non-digits, so they are the maximal runs; returns
the matched text and the remainder. -/
def parsePair (cs : List Char) : Option (List Char × List Char) :=
  let a := cs.takeWhile Char.isDigit
  if a.isEmpty then none
  else
    match expectChar ':' (cs.dropWhile Char.isDigit) with
    | none => none
    | some r2 =>
      let b := r2.takeWhile Char.isDigit
      if b.isEmpty then none
      else some (a ++ ':' :: b, r2.dropWhile Char.isDigit)

/-- The optional `\s*/\s*(\d+:\d+)` group of `RESULT_PATTERN`; a failing
group matches empty and leaves the position untouched. -/
def parsePointsOpt (cs : List Char) : Option (List Char) × List Char :=
  match expectChar '/' (cs.dropWhile isPySpace) with
  | none => (none, cs)
  | some cs2 =>
    match parsePair (cs2.dropWhile isPySpace) with
    | some pr => (some pr.1, pr.2)
    | none => (none, cs)

/-- The optional `\s*\(([^)]+)\)` group of `RESULT_PATTERN`: at least one
character up to the first closing parenthesis, which must exist. -/
def parseSetsOpt (cs : List Char) : Option (List Char) × List Char :=
  match expectChar '(' (cs.dropWhile isPySpace) with
  | none => (none, cs)
  | some cs2 =>
    let content := cs2.takeWhile (fun c => !(c = ')'))
    match expectChar ')' (cs2.dropWhile (fun c => !(c = ')'))) with
    | none => (none, cs)
    | some rest => if content.isEmpty then (none, cs) else (some content, rest)

/-- Set labels from the captured group: commas become spaces, then the text
is split on whitespace (`sets_raw.replace(",", " ").split()`). -/
def setsSplit (content : List Char) : List String :=
  (pySplitWs (content.map (fun c => if c = ',' then ' ' else c))).map String.mk

/-- Embedding of `_parse_result_text` (report.py). -/
def _parse_result_text (raw : Option String) : Option MatchResult :=
  match raw with
  | none => none
  | some raws =>
    let cleaned := pyStrip raws.data
    if cleaned.isEmpty then none
    else if cleaned = "-".data then none
    else if cleaned = "–".data then none
    else
      match parsePair (cleaned.dropWhile isPySpace) with
      | none => some ⟨String.mk cleaned, none, []⟩
      | some (scoreTxt, rest1) =>
        let points := parsePointsOpt rest1
        let setsRaw := parseSetsOpt points.2
        some ⟨String.mk scoreTxt, points.1.map String.mk,
          match setsRaw.1 with
          | none => []
          | some content => setsSplit content⟩

/-- Spec-side reading of "the cleaned text starts with `d:d` per
`RESULT_PATTERN`": after the leading `\s*`, a nonempty digit run, a colon
and a nonempty digit run follow. -/
def StartsWithScore (cs : List Char) : Prop :=
  ∃ a b rest, cs.dropWhile isPySpace = a ++ ':' :: (b ++ rest)
    ∧ a ≠ [] ∧ b ≠ [] ∧ (∀ c ∈ a, c.isDigit = true) ∧ (∀ c ∈ b, c.isDigit = true)

/-! ## Lineup serialization (lineups.py) -/

/-- `POSITION_SLOTS` of lineups.py. -/
def POSITION_SLOTS : List String := ["I", "II", "III", "IV", "V", "VI"]

/-- One serialized lineup entry of `_serialize_dataset`. -/
structure LineupEntry where
  slot : String
  number : Option String
  full_name : Option String
  short_name : Option String
deriving DecidableEq, Repr

/-- Embedding of `_short_display_name` (lineups.py): `None` for falsy input,
the stripped part before the first comma when a comma is present (or `None`
when that strips to empty), otherwise the last whitespace-separated word. -/
def _short_display_name (full_name : Option String) : Option String :=
  match full_name with
  | none => none
  | some s =>
    if s = "" then none
    else if s.data.contains ',' then
      let last_name := pyStripStr (String.mk (s.data.takeWhile (fun c => !(c = ','))))
      if last_name = "" then none else some last_name
    else
      match (pySplitWs s.data).reverse with
      | [] => none
      | w :: _ => some (String.mk w)

/-- One team's entry list of `_serialize_dataset`: zip `POSITION_SLOTS` with
the first six extracted positions, then pad with all-`None` entries while
fewer than six exist.  `resolve` abstracts the name lookup
`_choose_preferred_player_name(roster.get(n), official_roster.get(n)) or
roster.get(n) or official_roster.get(n)` (whose difflib-based choice the
claim does not touch); every property below holds for every resolver. -/
def buildEntries (positions : List String) (resolve : String → Option String) :
    List LineupEntry :=
  let zipped := (POSITION_SLOTS.zip (positions.take 6)).map
    (fun pr => ⟨pr.1, some pr.2, resolve pr.2, _short_display_name (resolve pr.2)⟩)
  zipped ++ (POSITION_SLOTS.drop zipped.length).map
    (fun sl => ⟨sl, none, none, none⟩)

/-- The per-set, per-team iteration of `_serialize_dataset` over the
extracted lineups (set number paired with its team-code/positions map). -/
def serializeSetLineups (sets : List (Nat × List (String × List String)))
    (resolve : String → Option String) : List (Nat × List (String × List LineupEntry)) :=
  sets.map (fun st => (st.1, st.2.map (fun tm => (tm.1, buildEntries tm.2 resolve))))

/-! ## `parse_schedule` (lineups.py) -/

/-- One record of `csv.DictReader`: every header field is a key; fields that
a short row does not fill hold `none` (the Python `None` restval). -/
def Record : Type := List (String × Option String)

/-- Python `row.get(k)` distinguishing a missing key (outer `none`, which
`row[k]` turns into `KeyError`) from a present key holding `None`. -/
def recGet (r : Record) (k : String) : Option (Option String) :=
  ((r : List (String × Option String)).find? (fun kv => kv.1 = k)).map Prod.snd

/-- Python `(row.get(k) or "")`. -/
def getStr (r : Record) (k : String) : String :=
  match recGet r k with
  | some (some v) => v
  | _ => ""

/-- Python `(row.get(k) or "").strip() or None`. -/
def strippedOrNone (r : Record) (k : String) : Option String :=
  let v := pyStripStr (getStr r k)
  if v = "" then none else some v

/-- Embedding of the dataclass `ScheduleRow` (lineups.py). -/
structure ScheduleRow where
  match_number : String
  kickoff : PyDateTime
  home_team : String
  away_team : String
  competition : String
  venue : String
  season : String
  result_label : String
  score : Option String
  total_points : Option String
  set_scores : List String
deriving DecidableEq, Repr

/-- The five per-set field-name pairs `f"Satz {i} - Ballpunkte 1/2"` that the
`range(1, 6)` loop of `parse_schedule` queries, written out literally. -/
def setScoreKeys : List (String × String) :=
  [("Satz 1 - Ballpunkte 1", "Satz 1 - Ballpunkte 2"),
   ("Satz 2 - Ballpunkte 1", "Satz 2 - Ballpunkte 2"),
   ("Satz 3 - Ballpunkte 1", "Satz 3 - Ballpunkte 2"),
   ("Satz 4 - Ballpunkte 1", "Satz 4 - Ballpunkte 2"),
   ("Satz 5 - Ballpunkte 1", "Satz 5 - Ballpunkte 2")]

/-- The `set_scores` loop: one `"home:away"` label per set whose two point
fields are both non-empty, in set order. -/
def rowSetScores (r : Record) : List String :=
  setScoreKeys.filterMap (fun ks =>
    let hp := pyStripStr (getStr r ks.1)
    let ap := pyStripStr (getStr r ks.2)
    if hp ≠ "" ∧ ap ≠ "" then some (hp ++ ":" ++ ap) else none)

/-- Body of the `parse_schedule` loop for one record.  `Except.error ()`
models the uncaught `AttributeError` that `parse_kickoff` raises when
`row["Datum"]` or `row["Uhrzeit"]` is the `None` of a short row (the
`except` clause only catches `KeyError` and `ValueError`); `.ok none` is a
silently skipped record. -/
def parseScheduleRecord (r : Record) : Except Unit (Option ScheduleRow) :=
  let match_number := pyStripStr (getStr r "#")
  if match_number = "" then .ok none
  else
    match recGet r "Datum" with
    | none => .ok none
    | some dv =>
      match recGet r "Uhrzeit" with
      | none => .ok none
      | some tv =>
        match dv, tv with
        | some ds, some ts =>
          match parse_kickoff ds ts with
          | none => .ok none
          | some kickoff =>
            .ok (some
              { match_number := match_number
                kickoff := kickoff
                home_team := pyStripStr (getStr r "Mannschaft 1")
                away_team := pyStripStr (getStr r "Mannschaft 2")
                competition := pyStripStr (getStr r "Spielrunde")
                venue := pyStripStr (getStr r "Austragungsort")
                season := pyStripStr (getStr r "Saison")
                result_label := pyStripStr (getStr r "Ergebnis")
                score := strippedOrNone r "Satzpunkte"
                total_points := strippedOrNone r "Ballpunkte"
                set_scores := rowSetScores r })
        | _, _ => .error ()

/-- Embedding of `parse_schedule` (lineups.py) over the `DictReader`
records; `none` models an exception escaping the loop. -/
def parse_schedule : List Record → Option (List ScheduleRow)
  | [] => some []
  | r :: rest =>
    match parseScheduleRecord r with
    | .error _ => none
    | .ok none => parse_schedule rest
    | .ok (some row) => (parse_schedule rest).map (fun rows => row :: rows)

/-- A record on which the loop body cannot hit the uncaught
`AttributeError`: either it is skipped early, or its date and time values
are genuine strings. -/
def recordSafe (r : Record) : Bool :=
  (pyStripStr (getStr r "#") = "")
    || (recGet r "Datum").isNone || (recGet r "Uhrzeit").isNone
    || (((recGet r "Datum").join).isSome && ((recGet r "Uhrzeit").join).isSome)

/-- A record that contributes a `ScheduleRow`: non-empty `#` field and a
date/time pair that `parse_kickoff` accepts. -/
def recordQualifies (r : Record) : Bool :=
  (pyStripStr (getStr r "#") ≠ "")
    && (match (recGet r "Datum").join, (recGet r "Uhrzeit").join with
        | some ds, some ts => (parse_kickoff ds ts).isSome
        | _, _ => false)

/-! ## `_extract_positions_from_table` (lineups.py) -/

/-- Embedding of `_clean_cell` (lineups.py): `None` becomes `""`; NBSP and
newlines become spaces, and whitespace runs collapse via
`" ".join(text.split())`. -/
def _clean_cell (cell : Option String) : String :=
  match cell with
  | none => ""
  | some s =>
    String.mk (List.intercalate [' '] (pySplitWs (s.data.map (fun c =>
      if c = '\xa0' then ' ' else if c = '\n' then ' ' else c))))

/-- Scanner for `re.search(r"\b\d{1,2}\b", value)`: leftmost one-or-two
digit group with word boundaries.  The engine's only backtracking (two
digits, then one) is resolved inline: a one-digit token is followed by a
digit exactly when the two-digit attempt was made, so each failing position
simply advances the scan.  The boolean argument records whether the
previous character was a word character. -/
def findNumGo : Bool → List Char → Option (List Char)
  | _, [] => none
  | prev, c :: rest =>
    if c.isDigit && !prev then
      match rest with
      | [] => some [c]
      | d :: rest2 =>
        if d.isDigit then
          match rest2 with
          | [] => some [c, d]
          | e :: _ =>
            if isWordChar e then findNumGo (isWordChar c) rest
            else some [c, d]
        else if isWordChar d then findNumGo (isWordChar c) rest
        else some [c]
    else findNumGo (isWordChar c) rest

/-- Leftmost `\b\d{1,2}\b` match of a string. -/
def findNum (cs : List Char) : Option (List Char) :=
  findNumGo false cs

/-- Embedding of `_collect_positions` (lineups.py): for each column index
inside the row, the first one-or-two digit group of that cell; at most the
first six collected values are kept. -/
def _collect_positions (row : List String) (columns : List Nat) : List String :=
  (columns.filterMap (fun col =>
    match row.get? col with
    | none => none
    | some value => (findNum value.data).map String.mk)).take 6

/-- Embedding of `_extract_score_value` (lineups.py). -/
def _extract_score_value (row : List String) (index : Nat) : Option String :=
  match row.get? index with
  | none => none
  | some v =>
    let value := _clean_cell (some v)
    if value = "" then none
    else (findNum value.data).map String.mk

/-- The letter class `[A-Za-zÄÖÜäöüß]` of `_detect_codes_from_row`. -/
def isLatinLetter (c : Char) : Bool :=
  ('A' ≤ c && c ≤ 'Z') || ('a' ≤ c && c ≤ 'z')
    || c = 'Ä' || c = 'Ö' || c = 'Ü' || c = 'ä' || c = 'ö' || c = 'ü' || c = 'ß'

/-- Scanner for `re.finditer(r"\b([AB])\s+[A-Za-zÄÖÜäöüß]{2,}", text)` with
the dedup-and-stop-at-two logic of `_detect_codes_from_row`.  `found` holds
the first distinct code seen.  The scan advances one character at a time:
no second match can begin strictly inside a match (its interior characters
are whitespace or letters preceded by word characters, and a letter run's
first character is always followed by another letter, never by `\s`), so
this equals the non-overlapping `finditer` traversal. -/
def detectCodesGo (prev : Bool) (found : Option Char) : List Char → Option (Char × Char)
  | [] => none
  | c :: rest =>
    if ((c == 'A' || c == 'B') && !prev)
        && decide (1 ≤ (rest.takeWhile isPySpace).length)
        && decide (2 ≤ ((rest.dropWhile isPySpace).takeWhile isLatinLetter).length) then
      match found with
      | none => detectCodesGo (isWordChar c) (some c) rest
      | some c0 =>
        if c = c0 then detectCodesGo (isWordChar c) (some c0) rest
        else some (c0, c)
    else detectCodesGo (isWordChar c) found rest

/-- Embedding of `_detect_codes_from_row` (lineups.py): the first two
distinct `A`/`B` codes found in the row text. -/
def _detect_codes_from_row (row : List String) : Option (Char × Char) :=
  detectCodesGo false none (List.intercalate [' '] (row.map String.data))

/-- Column indices whose cell is one of the six Roman numerals. -/
def romanCols (row : List String) : List Nat :=
  (row.enum.filter (fun iv =>
    (["I", "II", "III", "IV", "V", "VI"] : List String).contains iv.2)).map Prod.fst

/-- Column indices whose cell is exactly `"Punkte"`. -/
def scoreIndices (row : List String) : List Nat :=
  (row.enum.filter (fun iv => iv.2 = "Punkte")).map Prod.fst

/-- The team-code determination of `_find_header_indices` for header row
`i`: the header row itself, then (if they exist) the row above, then the
row two above. -/
def headerCodes (rows : List (List String)) (i : Nat) (row : List String) :
    Option (Char × Char) :=
  match _detect_codes_from_row row with
  | some cds => some cds
  | none =>
    if 1 ≤ i then
      match _detect_codes_from_row (rows.getD (i - 1) []) with
      | some cds => some cds
      | none =>
        if 2 ≤ i then _detect_codes_from_row (rows.getD (i - 2) []) else none
    else none

/-- The indexed loop of `_find_header_indices`, scanning the given list of
row indices in order. -/
def findHeaderScan (rows : List (List String)) :
    List Nat → Option (Nat × List Nat × List Nat × (Char × Char) × Option Nat × Option Nat)
  | [] => none
  | i :: more =>
    let row := rows.getD i []
    let roman := romanCols row
    if 12 ≤ roman.length then
      match headerCodes rows i row with
      | none => findHeaderScan rows more
      | some cds =>
        some (i, roman.take 6, (roman.drop 6).take 6, cds,
          (scoreIndices row).get? 0, (scoreIndices row).get? 1)
    else findHeaderScan rows more

/-- Embedding of `_find_header_indices` (lineups.py). -/
def _find_header_indices (rows : List (List String)) :
    Option (Nat × List Nat × List Nat × (Char × Char) × Option Nat × Option Nat) :=
  findHeaderScan rows (List.range rows.length)

/-- The post-header loop of `_extract_positions_from_table`: the first row
whose two collected position lists both have six entries. -/
def scanLineupRows (leftCols rightCols : List Nat) :
    List (List String) → Option (List String × List String × List String)
  | [] => none
  | row :: more =>
    let lv := _collect_positions row leftCols
    let rv := _collect_positions row rightCols
    if lv.length = 6 ∧ rv.length = 6 then some (row, lv, rv)
    else scanLineupRows leftCols rightCols more

/-- The score dictionary built for the found lineup row (only non-`None`
score values are inserted). -/
def buildScores (cds : Char × Char) (row : List String) (li ri : Option Nat) :
    List (String × String) :=
  (match li with
   | some i =>
     match _extract_score_value row i with
     | some sc => [(String.mk [cds.1], sc)]
     | none => []
   | none => []) ++
  (match ri with
   | some i =>
     match _extract_score_value row i with
     | some sc => [(String.mk [cds.2], sc)]
     | none => []
   | none => [])

/-- Column indices of the first row whose text mentions one of the fallback
keywords. -/
def fallbackSkipCols (row0 : List String) : List Nat :=
  (row0.enum.filter (fun iv =>
    occursIn "Punkte".data iv.2.data || occursIn "Wechsel".data iv.2.data
      || occursIn "Auszeit".data iv.2.data)).map Prod.fst

/-- The body of the header-less fallback, given the first row and the row
the digit columns are read from (`rows[1]` when it exists, else `rows[0]`). -/
def extractFallbackCore (row0 fallback_row : List String) :
    List (String × List String) × List (String × String) :=
  let team_order := _detect_codes_from_row row0
  let skip := fallbackSkipCols row0
  let digitCols := (fallback_row.enum.filter (fun iv =>
    !(skip.contains iv.1) && (findNum iv.2.data).isSome)).map Prod.fst
  if 12 ≤ digitCols.length then
    let left := _collect_positions fallback_row (digitCols.take 6)
    let right := _collect_positions fallback_row ((digitCols.drop 6).take 6)
    if left.length = 6 ∧ right.length = 6 then
      match team_order with
      | some cds =>
        ([(String.mk [cds.1], left), (String.mk [cds.2], right)], [])
      | none => ([("left", left), ("right", right)], [])
    else ([], [])
  else ([], [])

/-- The header-less fallback of `_extract_positions_from_table` (used e.g.
for set 5 tables).  An empty `rows` list models the uncaught `IndexError`
of `rows[0]`. -/
def extractFallback (rows : List (List String)) :
    Option (List (String × List String) × List (String × String)) :=
  match rows with
  | [] => none
  | row0 :: rest =>
    some (extractFallbackCore row0 (match rest with | [] => row0 | r1 :: _ => r1))

/-- Embedding of `_extract_positions_from_table` (lineups.py); the outer
`Option` models the uncaught `IndexError` on an empty table. -/
def _extract_positions_from_table (table : List (List (Option String))) :
    Option (List (String × List String) × List (String × String)) :=
  let rows := table.map (fun row => row.map _clean_cell)
  match _find_header_indices rows with
  | some (hi, leftCols, rightCols, cds, li, ri) =>
    match scanLineupRows leftCols rightCols (rows.drop (hi + 1)) with
    | some (row, lv, rv) =>
      some ([(String.mk [cds.1], lv), (String.mk [cds.2], rv)], buildScores cds row li ri)
    | none => extractFallback rows
  | none => extractFallback rows

/-- Statement of the amended C2 property for one extraction result: either
the empty mapping with empty scores, or exactly two distinct team keys, each
mapped to exactly six position strings. -/
def ExtractResultOk
    (res : List (String × List String) × List (String × String)) : Prop :=
  (res.1 = [] ∧ res.2 = []) ∨
    ∃ k1 k2 v1 v2, res.1 = [(k1, v1), (k2, v2)] ∧ k1 ≠ k2
      ∧ v1.length = 6 ∧ v2.length = 6

/-! ## `_deduplicate_matches` (report.py) -/

/-- Embedding of the `Match` dataclass (report.py) restricted to the fields
`_deduplicate_matches` reads or writes: `kickoff` (an integer timestamp —
`datetime` values are totally ordered), the two team names, and
`competition`; every other dataclass field is bundled into `payload`, which
`dataclasses.replace` leaves untouched. -/
structure Match (α : Type) where
  kickoff : Int
  home_team : String
  away_team : String
  competition : Option String
  payload : α

/-- The dedup signature
`(match.kickoff, normalize_name(home_team), normalize_name(away_team))`. -/
def sig {α : Type} (m : Match α) : Int × String × String :=
  (m.kickoff, normalize_name m.home_team, normalize_name m.away_team)

/-- Python truthiness of the `competition` field (`None` and `""` are
falsy). -/
def compTruthy : Option String → Bool
  | none => false
  | some s => decide (s ≠ "")

/-- The duplicate branch of the loop: `index_lookup[signature]` points at
the unique already-kept match with this signature, whose `competition` is
backfilled (`dataclasses.replace`) when it is falsy and the new one is
truthy.  Since signatures in `unique` are distinct, replacing the first
signature match models the indexed update. -/
def updateFirst {α : Type} (m : Match α) : List (Match α) → List (Match α)
  | [] => []
  | x :: xs =>
    if sig x = sig m then
      (if !compTruthy x.competition && compTruthy m.competition
       then { x with competition := m.competition } else x) :: xs
    else x :: updateFirst m xs

/-- The loop of `_deduplicate_matches` over the kickoff-sorted list; the
`seen` set and `index_lookup` are represented by the signatures of the
accumulator itself. -/
def dedupGo {α : Type} (acc : List (Match α)) : List (Match α) → List (Match α)
  | [] => acc
  | m :: rest =>
    if sig m ∈ acc.map sig then dedupGo (updateFirst m acc) rest
    else dedupGo (acc ++ [m]) rest

/-- Embedding of `_deduplicate_matches` (report.py): the loop over
`sorted(matches, key=lambda match: match.kickoff)` (a stable merge sort,
like Python's `sorted`). -/
def _deduplicate_matches {α : Type} (ms : List (Match α)) :
    List (Match α) :=
  dedupGo [] (ms.mergeSort (fun a b => decide (a.kickoff ≤ b.kickoff)))

/-- All fields except `competition` agree. -/
def sameCore {α : Type} (a b : Match α) : Prop :=
  a.kickoff = b.kickoff ∧ a.home_team = b.home_team
    ∧ a.away_team = b.away_team ∧ a.payload = b.payload

/-- An output match's relation to the kickoff-sorted input `L`: it agrees
with the first match of `L` carrying its signature on every field, except
that `competition` may have been replaced by a duplicate's truthy
competition when that first match's own competition was falsy. -/
def DedupOrigin {α : Type} (L : List (Match α)) (m : Match α) : Prop :=
  ∃ m0, L.find? (fun x => decide (sig x = sig m)) = some m0
    ∧ sameCore m m0
    ∧ (m.competition = m0.competition
        ∨ (compTruthy m0.competition = false
            ∧ ∃ mc, mc ∈ L ∧ sig mc = sig m
                ∧ m.competition = mc.competition
                ∧ compTruthy mc.competition = true))

/-- Statement of the C9 property: output sorted by kickoff ascending, all
signatures distinct, every output match originating in the first sorted
input match with its signature (competition possibly backfilled), and every
input signature still present. -/
def DedupSpecStatement {α : Type} (ms : List (Match α)) : Prop :=
  (_deduplicate_matches ms).Pairwise (fun a b => a.kickoff ≤ b.kickoff)
    ∧ ((_deduplicate_matches ms).map sig).Nodup
    ∧ (∀ x ∈ _deduplicate_matches ms,
        DedupOrigin (ms.mergeSort (fun a b => decide (a.kickoff ≤ b.kickoff))) x)
    ∧ (∀ m ∈ ms, sig m ∈ (_deduplicate_matches ms).map sig)

/-! ## `collect_mvp_rankings` (mvp.py)

The network client (`_MVPClient`) is modelled by two oracles:
`selectOk id` tells whether `select_indicator(id)` succeeds (its failure is
caught and recorded as an empty row list), and `fetch id team_filter`
returns `some rows` when `fetch_team_rows(team_filter)` succeeds for the
currently selected indicator and `none` when it raises (caught: `rows = []`).
`limit` is `Nat`: the function's only call site uses the default `5`, and
for non-negative limits Python's slicing and `while`-padding coincide with
the embedding. -/

/-- Embedding of `MVP_HEADERS` (mvp.py), 13 column titles. -/
def MVP_HEADERS : List String :=
  ["Rang", "", "Name", "Sätze", "Spiele", "Position", "Mannschaft", "Nation",
   "Wert1", "Wert2", "Wert3", "Kennzahl", "Wertung"]

/-- Embedding of `MVP_INDICATORS` (mvp.py), an ordered mapping of 11
indicator ids to labels. -/
def MVP_INDICATORS : List (String × String) :=
  [("60245649", "alle Spielelemente / Top-Scorer"),
   ("29593924", "Aufschlag / Quote Aufschläge mit Wirkung"),
   ("31385020", "Annahme / Quote perfekte oder gute Annahme"),
   ("29593922", "Aufschlag / Quote Aufschlagpunkte"),
   ("60245660", "Annahme / Annahmeeffizienz"),
   ("29593918", "Angriff / Angriffseffizienz"),
   ("29593928", "Block / Blockpunkte"),
   ("29593923", "Aufschlag / Aufschlagpunkte"),
   ("29593919", "Angriff / Quote Angriffspunkte"),
   ("29593920", "Angriff / Angriffspunkte"),
   ("60245659", "Aufschlag / Aufschlageffizienz")]

/-- Embedding of `TEAM_RANKING_FILTERS` (mvp.py): keys are normalized team
names. -/
def TEAM_RANKING_FILTERS : List (String × String) :=
  [(normalize_name "Allianz MTV Stuttgart", "Stuttgart"),
   (normalize_name "Binder Blaubären TSV Flacht", "Flacht"),
   (normalize_name "Dresdner SC", "Dresden"),
   (normalize_name "ETV Hamburger Volksbank Volleys", "Hamburg"),
   (normalize_name "Ladies in Black Aachen", "Aachen"),
   (normalize_name "Schwarz-Weiß Erfurt", "Erfurt"),
   (normalize_name "Skurios Volleys Borken", "Borken"),
   (normalize_name "SSC Palmberg Schwerin", "Schwerin"),
   (normalize_name "USC Münster", "Münster"),
   (normalize_name "VC Wiesbaden", "Wiesbaden"),
   (normalize_name "VfB Suhl LOTTO Thüringen", "Suhl")]

/-- Embedding of `_resolve_team_filter` (mvp.py): look the normalized name
up in the filter table; on a miss (or an empty mapped value) fall back to
the last whitespace-separated word of the name with `-` turned into a
space. -/
def _resolve_team_filter (team_name : String) : Option String :=
  let normalized := normalize_name team_name
  let fallback :=
    ((pySplitWs (team_name.data.map (fun c =>
      if c = '-' then ' ' else c))).getLast?).map String.mk
  match TEAM_RANKING_FILTERS.lookup normalized with
  | some mapped => if mapped = "" then fallback else some mapped
  | none => fallback

/-- Embedding of `_build_placeholder_row` (mvp.py): dashes (and one empty
cell), with the `Mannschaft` column (index 6) set to the team label. -/
def _build_placeholder_row (team_label : String) : List String :=
  (["–", ""] ++ List.replicate (MVP_HEADERS.length - 2) "–").set 6 team_label

/-- Embedding of `_ensure_row_limit` (mvp.py): truncate to `limit`, then
pad with placeholder rows up to `limit`. -/
def _ensure_row_limit (rows : List (List String)) (team_label : String)
    (limit : Nat) : List (List String) :=
  let limited := rows.take limit
  limited ++ List.replicate (limit - limited.length) (_build_placeholder_row team_label)

/-- `fetch_team_rows` with its exception handler: a raising fetch
contributes an empty row list. -/
def mvpFetchRows (fetch : String → String → Option (List (List String)))
    (indicator_id team_filter : String) : List (List String) :=
  match fetch indicator_id team_filter with
  | some rows => rows
  | none => []

/-- The rows one (name, team_filter) pair contributes to one indicator. -/
def mvpChunk (fetch : String → String → Option (List (List String)))
    (limit : Nat) (indicator_id : String) (nf : String × String) :
    List (List String) :=
  _ensure_row_limit (mvpFetchRows fetch indicator_id nf.2) nf.2 limit

/-- The filter list built at the top of `collect_mvp_rankings`: resolvable
teams with truthy filter values, in team order. -/
def mvpFilters (team_names : List String) : List (String × String) :=
  team_names.filterMap (fun name =>
    match _resolve_team_filter name with
    | some f => if f = "" then none else some (name, f)
    | none => none)

/-- One indicator's entry of the result mapping. -/
def mvpEntry (selectOk : String → Bool)
    (fetch : String → String → Option (List (List String)))
    (filters : List (String × String)) (limit : Nat) (p : String × String) :
    String × List String × List (List String) :=
  if selectOk p.1 then
    (p.2, MVP_HEADERS, filters.flatMap (mvpChunk fetch limit p.1))
  else (p.2, MVP_HEADERS, [])

/-- Embedding of `collect_mvp_rankings` (mvp.py): label-keyed ordered
mapping of `(headers, rows)` entries, empty when no team or no resolvable
filter exists. -/
def collect_mvp_rankings (selectOk : String → Bool)
    (fetch : String → String → Option (List (List String)))
    (team_names : List String) (limit : Nat) :
    List (String × List String × List (List String)) :=
  if team_names = [] then []
  else if mvpFilters team_names = [] then []
  else MVP_INDICATORS.map (mvpEntry selectOk fetch (mvpFilters team_names) limit)

/-- Statement of the C7 property: one entry per indicator label (the 11
labels are distinct), every entry carries the 13 fixed headers, failed
selections yield empty row lists, successful ones concatenate one chunk
per resolved filter, and every chunk has exactly `limit` rows — the
fetched rows truncated to `limit`, padded with placeholder rows whose
column 6 is the team's filter label. -/
def MvpSpecStatement (selectOk : String → Bool)
    (fetch : String → String → Option (List (List String)))
    (team_names : List String) (limit : Nat) : Prop :=
  (collect_mvp_rankings selectOk fetch team_names limit).map (fun e => e.1)
      = MVP_INDICATORS.map (fun p => p.2)
    ∧ (MVP_INDICATORS.map (fun p => p.2)).Nodup
    ∧ MVP_INDICATORS.length = 11
    ∧ (∀ e ∈ collect_mvp_rankings selectOk fetch team_names limit,
        e.2.1 = MVP_HEADERS ∧ MVP_HEADERS.length = 13)
    ∧ (∀ p ∈ MVP_INDICATORS, selectOk p.1 = false →
        (p.2, MVP_HEADERS, ([] : List (List String)))
          ∈ collect_mvp_rankings selectOk fetch team_names limit)
    ∧ (∀ p ∈ MVP_INDICATORS, selectOk p.1 = true →
        (p.2, MVP_HEADERS,
            (mvpFilters team_names).flatMap (mvpChunk fetch limit p.1))
          ∈ collect_mvp_rankings selectOk fetch team_names limit)
    ∧ (∀ indicator_id nf, (mvpChunk fetch limit indicator_id nf).length = limit
        ∧ ∃ pad, mvpChunk fetch limit indicator_id nf
              = (mvpFetchRows fetch indicator_id nf.2).take limit ++ pad
            ∧ ∀ r ∈ pad, r.length = 13 ∧ r.get? 6 = some nf.2)

/-! ## `DirectComparisonSummary` (report.py) -/

/-- Embedding of the frozen dataclass `DirectComparisonSummary`. -/
structure DirectComparisonSummary where
  matches_played : Int
  usc_wins : Int
  opponent_wins : Int
  usc_sets_for : Int
  opponent_sets_for : Int
  usc_points_for : Int
  opponent_points_for : Int
deriving DecidableEq, Repr

namespace DirectComparisonSummary

/-- Property `usc_losses` of `DirectComparisonSummary`. -/
def usc_losses (s : DirectComparisonSummary) : Int :=
  s.opponent_wins

/-- Property `opponent_losses` of `DirectComparisonSummary`. -/
def opponent_losses (s : DirectComparisonSummary) : Int :=
  s.usc_wins

/-- Property `usc_win_pct`: `None` for a non-positive number of matches,
otherwise the exact percentage (modelled in `ℚ`). -/
def usc_win_pct (s : DirectComparisonSummary) : Option ℚ :=
  if s.matches_played ≤ 0 then none
  else some ((s.usc_wins / (s.matches_played : ℚ)) * 100)

/-- Property `opponent_win_pct`, the mirror image of `usc_win_pct`. -/
def opponent_win_pct (s : DirectComparisonSummary) : Option ℚ :=
  if s.matches_played ≤ 0 then none
  else some ((s.opponent_wins / (s.matches_played : ℚ)) * 100)

end DirectComparisonSummary

end USC

namespace USC

/-! # Theorems -/

/-! ### Character facts -/

theorem char_eq_iff_toNat (a b : Char) : a = b ↔ a.toNat = b.toNat := by
  constructor
  · intro h; rw [h]
  · intro h; exact Char.ext (UInt32.ext h)

theorem char_le_iff_toNat (a b : Char) : (a ≤ b) ↔ a.toNat ≤ b.toNat := by
  rw [Char.le_def]
  exact ⟨fun h => by exact_mod_cast h, fun h => by exact_mod_cast h⟩

theorem isPySpace_eq_false_of_isLowerAlnum (c : Char) (h : isLowerAlnum c = true) :
    isPySpace c = false := by
  have ea : 'a'.toNat = 97 := rfl
  have ez : 'z'.toNat = 122 := rfl
  have e0 : '0'.toNat = 48 := rfl
  have e9 : '9'.toNat = 57 := rfl
  have es : ' '.toNat = 32 := rfl
  have et : '\t'.toNat = 9 := rfl
  have en : '\n'.toNat = 10 := rfl
  have er : '\r'.toNat = 13 := rfl
  have ev : '\x0b'.toNat = 11 := rfl
  have ef : '\x0c'.toNat = 12 := rfl
  have el : '\x85'.toNat = 133 := rfl
  have eb : '\xa0'.toNat = 160 := rfl
  simp only [isLowerAlnum, Bool.or_eq_true, Bool.and_eq_true, char_le_iff_toNat,
    decide_eq_true_eq, ea, ez, e0, e9] at h
  simp only [isPySpace, char_eq_iff_toNat, es, et, en, er, ev, ef, el, eb,
    Bool.or_eq_false_iff, decide_eq_false_iff_not]
  omega

/-! ### Occurrence and prefix facts -/

theorem isPrefixOf_append_left (p l w : List Char) (h : p.isPrefixOf l = true) :
    p.isPrefixOf (l ++ w) = true := by
  rw [List.isPrefixOf_iff_prefix] at h ⊢
  exact h.trans (List.prefix_append l w)

theorem occursIn_iff_exists (p l : List Char) :
    occursIn p l = true ↔ ∃ i, p.isPrefixOf (l.drop i) = true := by
  induction l with
  | nil =>
    simp only [occursIn, List.drop_nil]
    constructor
    · intro h; exact ⟨0, by cases p <;> simp_all [List.isPrefixOf]⟩
    · rintro ⟨i, hi⟩; cases p <;> simp_all [List.isPrefixOf]
  | cons c rest ih =>
    simp only [occursIn, Bool.or_eq_true, ih]
    constructor
    · rintro (h | ⟨i, hi⟩)
      · exact ⟨0, h⟩
      · exact ⟨i + 1, hi⟩
    · rintro ⟨i, hi⟩
      cases i with
      | zero => exact Or.inl hi
      | succ j => exact Or.inr ⟨j, hi⟩

theorem occursIn_nil_pattern (l : List Char) : occursIn [] l = true := by
  induction l with
  | nil => rfl
  | cons c rest ih => simp [occursIn, List.isPrefixOf, ih]

theorem occursIn_append_right (p a v : List Char) (h : occursIn p v = true) :
    occursIn p (a ++ v) = true := by
  induction a with
  | nil => exact h
  | cons x xs ih => simp [occursIn, ih]

theorem occursIn_append_left (p l b : List Char) (h : occursIn p l = true) :
    occursIn p (l ++ b) = true := by
  induction l with
  | nil =>
    simp only [occursIn, List.isEmpty_iff] at h
    subst h
    exact occursIn_nil_pattern b
  | cons c rest ih =>
    simp only [occursIn, Bool.or_eq_true] at h
    rcases h with h | h
    · simpa [occursIn] using Or.inl (isPrefixOf_append_left p (c :: rest) b h)
    · simp [occursIn, ih h]

theorem occursIn_of_middle (p l₁ l₂ : List Char) (hinf : l₁ <:+: l₂)
    (h : occursIn p l₁ = true) : occursIn p l₂ = true := by
  obtain ⟨a, b, rfl⟩ := hinf
  rw [List.append_assoc]
  exact occursIn_append_right p a (l₁ ++ b) (occursIn_append_left p l₁ b h)

theorem occursIn_cons_tail (p : List Char) (c : Char) (rest : List Char)
    (h : occursIn p (c :: rest) = false) : occursIn p rest = false := by
  simp only [occursIn, Bool.or_eq_false_iff] at h
  exact h.2

theorem occursIn_drop (q s : List Char) (n : Nat) (h : occursIn q s = false) :
    occursIn q (s.drop n) = false := by
  by_contra hc
  rw [Bool.not_eq_false] at hc
  rw [occursIn_of_middle q (s.drop n) s (List.drop_suffix n s).isInfix hc] at h
  exact Bool.true_eq_false.mp h

theorem not_prefixOf_append (p a : List Char) (h₁ : a.isPrefixOf p = false)
    (h₂ : p.isPrefixOf a = false) (w : List Char) :
    p.isPrefixOf (a ++ w) = false := by
  induction a generalizing p with
  | nil => simp [List.isPrefixOf] at h₁
  | cons x xs ih =>
    cases p with
    | nil => simp [List.isPrefixOf] at h₂
    | cons y ys =>
      simp only [List.isPrefixOf, List.cons_append, Bool.and_eq_false_iff] at h₁ h₂ ⊢
      rcases h₁ with h₁ | h₁
      · left
        cases hxy : x == y
        · simp_all [BEq.comm]
        · simp_all
      · rcases h₂ with h₂ | h₂
        · left; exact h₂
        · right; exact ih ys h₁ h₂

/-! ### Facts about `replaceAll` -/

theorem replaceAllGo_fuel (p r : List Char) :
    ∀ f₁ f₂ s, s.length ≤ f₁ → s.length ≤ f₂ →
      replaceAllGo p r f₁ s = replaceAllGo p r f₂ s := by
  intro f₁
  induction f₁ with
  | zero =>
    intro f₂ s hs _
    rw [List.length_eq_zero.mp (Nat.le_zero.mp hs)]
    cases f₂ <;> rfl
  | succ f ih =>
    intro f₂ s hs1 hs2
    cases s with
    | nil => cases f₂ <;> rfl
    | cons c rest =>
      cases f₂ with
      | zero => simp at hs2
      | succ g =>
        simp only [replaceAllGo]
        by_cases hp : p.isPrefixOf (c :: rest) = true
        · rw [if_pos hp, if_pos hp]
          congr 1
          apply ih
          · have := List.length_drop (p.length - 1) rest
            simp only [List.length_cons] at hs1
            omega
          · have := List.length_drop (p.length - 1) rest
            simp only [List.length_cons] at hs2
            omega
        · rw [if_neg hp, if_neg hp]
          congr 1
          apply ih
          · simp only [List.length_cons] at hs1; omega
          · simp only [List.length_cons] at hs2; omega

theorem replaceAll_nil (p r : List Char) : replaceAll p r [] = [] := rfl

theorem replaceAll_cons (p r : List Char) (c : Char) (rest : List Char) :
    replaceAll p r (c :: rest) =
      if p.isPrefixOf (c :: rest) then r ++ replaceAll p r (rest.drop (p.length - 1))
      else c :: replaceAll p r rest := by
  show replaceAllGo p r (rest.length + 1) (c :: rest) = _
  simp only [replaceAllGo]
  by_cases hp : p.isPrefixOf (c :: rest) = true
  · rw [if_pos hp, if_pos hp]
    congr 1
    apply replaceAllGo_fuel
    · have := List.length_drop (p.length - 1) rest
      omega
    · exact le_rfl
  · rw [if_neg hp, if_neg hp]
    rfl

theorem replaceAll_eq_self (p r s : List Char) (h : occursIn p s = false) :
    replaceAll p r s = s := by
  induction s with
  | nil => exact replaceAll_nil p r
  | cons c rest ih =>
    simp only [occursIn, Bool.or_eq_false_iff] at h
    rw [replaceAll_cons, if_neg (by simp [h.1]), ih h.2]

theorem prefixOf_replaceAll (p : List Char) (rh : Char) (rtl : List Char) :
    ∀ (s q : List Char), rh ∉ q → q.isPrefixOf (replaceAll p (rh :: rtl) s) = true →
      q.isPrefixOf s = true := by
  intro s
  induction s with
  | nil =>
    intro q hq h
    simpa [replaceAll_nil] using h
  | cons c rest ih =>
    intro q hq h
    rw [replaceAll_cons] at h
    by_cases hpre : p.isPrefixOf (c :: rest) = true
    · rw [if_pos hpre] at h
      cases q with
      | nil => simp [List.isPrefixOf]
      | cons qh qt =>
        simp only [List.cons_append, List.isPrefixOf, Bool.and_eq_true, beq_iff_eq] at h
        exact absurd (h.1 ▸ List.mem_cons_self qh qt) hq
    · rw [if_neg hpre] at h
      cases q with
      | nil => simp [List.isPrefixOf]
      | cons qh qt =>
        simp only [List.isPrefixOf, Bool.and_eq_true] at h ⊢
        exact ⟨h.1, ih qt (fun hm => hq (List.mem_cons_of_mem qh hm)) h.2⟩

theorem occursIn_append_cases (p a v : List Char) (h : occursIn p (a ++ v) = true) :
    (∃ i, i < a.length ∧ p.isPrefixOf (a.drop i ++ v) = true) ∨ occursIn p v = true := by
  induction a with
  | nil => right; exact h
  | cons x xs ih =>
    simp only [List.cons_append, occursIn, Bool.or_eq_true] at h
    rcases h with h | h
    · left; exact ⟨0, Nat.succ_pos xs.length, by simpa using h⟩
    · rcases ih h with ⟨i, hi, hpre⟩ | h2
      · left
        refine ⟨i + 1, by simpa using Nat.succ_lt_succ hi, ?_⟩
        simpa using hpre
      · right; exact h2

theorem occursIn_replaceAll_self (p : List Char) (rh : Char) (rtl : List Char)
    (hp : p ≠ [])
    (hH : ∀ i, i < (rh :: rtl).length →
      ((rh :: rtl).drop i).isPrefixOf p = false ∧ p.isPrefixOf ((rh :: rtl).drop i) = false)
    (hhead : rh ∉ p.tail) :
    ∀ s, occursIn p (replaceAll p (rh :: rtl) s) = false := by
  suffices H : ∀ n s, s.length ≤ n → occursIn p (replaceAll p (rh :: rtl) s) = false by
    intro s; exact H s.length s le_rfl
  intro n
  induction n with
  | zero =>
    intro s hs
    rw [List.length_eq_zero.mp (Nat.le_zero.mp hs), replaceAll_nil]
    simpa [occursIn, List.isEmpty_iff] using hp
  | succ n ihn =>
    intro s hs
    cases s with
    | nil =>
      rw [replaceAll_nil]
      simpa [occursIn, List.isEmpty_iff] using hp
    | cons c rest =>
      by_cases hpre : p.isPrefixOf (c :: rest) = true
      · rw [replaceAll_cons, if_pos hpre]
        by_contra hc
        rw [Bool.not_eq_false] at hc
        rcases occursIn_append_cases p (rh :: rtl)
            (replaceAll p (rh :: rtl) (rest.drop (p.length - 1))) hc with ⟨i, hi, hix⟩ | hv
        · have := not_prefixOf_append p ((rh :: rtl).drop i) (hH i hi).1 (hH i hi).2
            (replaceAll p (rh :: rtl) (rest.drop (p.length - 1)))
          rw [this] at hix
          exact Bool.false_ne_true hix
        · have hlen : (rest.drop (p.length - 1)).length ≤ n := by
            have h1 : rest.length ≤ n := by simpa using hs
            have h2 := List.length_drop (p.length - 1) rest
            omega
          rw [ihn (rest.drop (p.length - 1)) hlen] at hv
          exact Bool.false_ne_true hv
      · rw [replaceAll_cons, if_neg hpre]
        simp only [occursIn, Bool.or_eq_false_iff]
        constructor
        · by_contra hc
          rw [Bool.not_eq_false] at hc
          cases p with
          | nil => exact hp rfl
          | cons ph pt =>
            simp only [List.isPrefixOf, Bool.and_eq_true, beq_iff_eq] at hc
            have hpt : pt.isPrefixOf rest = true :=
              prefixOf_replaceAll (ph :: pt) rh rtl rest pt hhead hc.2
            have : (ph :: pt).isPrefixOf (c :: rest) = true := by
              simp [List.isPrefixOf, hc.1, hpt]
            exact hpre this
        · exact ihn rest (by simpa using Nat.le_of_succ_le_succ hs)

theorem occursIn_replaceAll_other (q p : List Char) (rh : Char) (rtl : List Char)
    (hq : q ≠ [])
    (hH : ∀ i, i < (rh :: rtl).length →
      ((rh :: rtl).drop i).isPrefixOf q = false ∧ q.isPrefixOf ((rh :: rtl).drop i) = false)
    (hhead : rh ∉ q.tail) :
    ∀ s, occursIn q s = false → occursIn q (replaceAll p (rh :: rtl) s) = false := by
  suffices H : ∀ n s, s.length ≤ n → occursIn q s = false →
      occursIn q (replaceAll p (rh :: rtl) s) = false by
    intro s; exact H s.length s le_rfl
  intro n
  induction n with
  | zero =>
    intro s hs h
    rw [List.length_eq_zero.mp (Nat.le_zero.mp hs), replaceAll_nil]
    simpa [occursIn, List.isEmpty_iff] using hq
  | succ n ihn =>
    intro s hs h
    cases s with
    | nil =>
      rw [replaceAll_nil]
      simpa [occursIn, List.isEmpty_iff] using hq
    | cons c rest =>
      by_cases hpre : p.isPrefixOf (c :: rest) = true
      · rw [replaceAll_cons, if_pos hpre]
        by_contra hc
        rw [Bool.not_eq_false] at hc
        rcases occursIn_append_cases q (rh :: rtl)
            (replaceAll p (rh :: rtl) (rest.drop (p.length - 1))) hc with ⟨i, hi, hix⟩ | hv
        · have := not_prefixOf_append q ((rh :: rtl).drop i) (hH i hi).1 (hH i hi).2
            (replaceAll p (rh :: rtl) (rest.drop (p.length - 1)))
          rw [this] at hix
          exact Bool.false_ne_true hix
        · have hlen : (rest.drop (p.length - 1)).length ≤ n := by
            have h1 : rest.length ≤ n := by simpa using hs
            have h2 := List.length_drop (p.length - 1) rest
            omega
          have hrest : occursIn q (rest.drop (p.length - 1)) = false :=
            occursIn_drop q rest (p.length - 1) (occursIn_cons_tail q c rest h)
          rw [ihn (rest.drop (p.length - 1)) hlen hrest] at hv
          exact Bool.false_ne_true hv
      · rw [replaceAll_cons, if_neg hpre]
        simp only [occursIn, Bool.or_eq_false_iff]
        constructor
        · by_contra hc
          rw [Bool.not_eq_false] at hc
          cases q with
          | nil => exact hq rfl
          | cons qh qt =>
            simp only [List.isPrefixOf, Bool.and_eq_true, beq_iff_eq] at hc
            have hqt : qt.isPrefixOf rest = true :=
              prefixOf_replaceAll p rh rtl rest qt hhead hc.2
            have hqs : (qh :: qt).isPrefixOf (c :: rest) = true := by
              simp [List.isPrefixOf, hc.1, hqt]
            have : occursIn (qh :: qt) (c :: rest) = true := by
              simp [occursIn, hqs]
            rw [this] at h
            exact Bool.noConfusion h
        · exact ihn rest (by simpa using Nat.le_of_succ_le_succ hs)
            (occursIn_cons_tail q c rest h)

/-! ### Facts about `squashRuns` -/

theorem squashRunsGo_fuel (bad : Char → Bool) :
    ∀ f₁ f₂ s, s.length ≤ f₁ → s.length ≤ f₂ →
      squashRunsGo bad f₁ s = squashRunsGo bad f₂ s := by
  intro f₁
  induction f₁ with
  | zero =>
    intro f₂ s hs _
    rw [List.length_eq_zero.mp (Nat.le_zero.mp hs)]
    cases f₂ <;> rfl
  | succ f ih =>
    intro f₂ s hs1 hs2
    cases s with
    | nil => cases f₂ <;> rfl
    | cons c rest =>
      cases f₂ with
      | zero => simp at hs2
      | succ g =>
        simp only [squashRunsGo]
        by_cases hb : bad c = true
        · rw [if_pos hb, if_pos hb]
          congr 1
          apply ih
          · have := (@List.dropWhile_sublist Char rest bad).length_le
            simp only [List.length_cons] at hs1
            omega
          · have := (@List.dropWhile_sublist Char rest bad).length_le
            simp only [List.length_cons] at hs2
            omega
        · rw [if_neg hb, if_neg hb]
          congr 1
          apply ih
          · simp only [List.length_cons] at hs1; omega
          · simp only [List.length_cons] at hs2; omega

theorem squashRuns_nil (bad : Char → Bool) : squashRuns bad [] = [] := rfl

theorem squashRuns_cons (bad : Char → Bool) (c : Char) (rest : List Char) :
    squashRuns bad (c :: rest) =
      if bad c then ' ' :: squashRuns bad (rest.dropWhile bad)
      else c :: squashRuns bad rest := by
  show squashRunsGo bad (rest.length + 1) (c :: rest) = _
  simp only [squashRunsGo]
  by_cases hb : bad c = true
  · rw [if_pos hb, if_pos hb]
    congr 1
    apply squashRunsGo_fuel
    · have := (@List.dropWhile_sublist Char rest bad).length_le
      omega
    · exact le_rfl
  · rw [if_neg hb, if_neg hb]
    rfl

theorem head_dropWhile_not_bad (bad : Char → Bool) (l : List Char) :
    ∀ x ∈ (l.dropWhile bad).head?, bad x = false := by
  intro x hx
  have hmatch := List.head?_dropWhile_not bad l
  rw [Option.mem_def] at hx
  rw [hx] at hmatch
  exact hmatch

theorem occursIn_dropWhile (q s : List Char) (bad : Char → Bool)
    (h : occursIn q s = false) : occursIn q (s.dropWhile bad) = false := by
  by_contra hc
  rw [Bool.not_eq_false] at hc
  rw [occursIn_of_middle q (s.dropWhile bad) s (List.dropWhile_suffix bad).isInfix hc] at h
  exact Bool.noConfusion h

theorem mem_squashRuns (bad : Char → Bool) :
    ∀ s, ∀ c ∈ squashRuns bad s, c = ' ' ∨ (bad c = false ∧ c ∈ s) := by
  suffices H : ∀ n s, s.length ≤ n → ∀ c ∈ squashRuns bad s, c = ' ' ∨ (bad c = false ∧ c ∈ s) by
    intro s; exact H s.length s le_rfl
  intro n
  induction n with
  | zero =>
    intro s hs
    rw [List.length_eq_zero.mp (Nat.le_zero.mp hs), squashRuns_nil]
    simp
  | succ n ihn =>
    intro s hs c hc
    cases s with
    | nil => rw [squashRuns_nil] at hc; simp at hc
    | cons x rest =>
      rw [squashRuns_cons] at hc
      by_cases hb : bad x = true
      · rw [if_pos hb] at hc
        rcases List.mem_cons.mp hc with hc | hc
        · left; exact hc
        · have hlen : (rest.dropWhile bad).length ≤ n := by
            have := (@List.dropWhile_sublist Char rest bad).length_le
            have : rest.length ≤ n := by simpa using hs
            omega
          rcases ihn (rest.dropWhile bad) hlen c hc with h | ⟨hb2, hm⟩
          · left; exact h
          · right
            exact ⟨hb2, List.mem_cons_of_mem x
              ((List.dropWhile_sublist bad).mem hm)⟩
      · rw [if_neg hb] at hc
        rcases List.mem_cons.mp hc with hc | hc
        · right
          rw [hc]
          exact ⟨by simpa using hb, List.mem_cons_self x rest⟩
        · rcases ihn rest (by simpa using Nat.le_of_succ_le_succ hs) c hc with h | ⟨hb2, hm⟩
          · left; exact h
          · right; exact ⟨hb2, List.mem_cons_of_mem x hm⟩

theorem squashRuns_head_not_bad (bad : Char → Bool) (u : List Char)
    (hu : ∀ x ∈ u.head?, bad x = false) : (squashRuns bad u).head? = u.head? := by
  cases u with
  | nil => rw [squashRuns_nil]
  | cons c rest =>
    have hc : bad c = false := hu c (by simp)
    rw [squashRuns_cons, if_neg (by simp [hc])]
    simp

theorem chain_squashRuns (bad : Char → Bool) :
    ∀ s, List.Chain' (fun a b => ¬(bad a = true ∧ bad b = true)) (squashRuns bad s) := by
  suffices H : ∀ n s, s.length ≤ n →
      List.Chain' (fun a b => ¬(bad a = true ∧ bad b = true)) (squashRuns bad s) by
    intro s; exact H s.length s le_rfl
  intro n
  induction n with
  | zero =>
    intro s hs
    rw [List.length_eq_zero.mp (Nat.le_zero.mp hs), squashRuns_nil]
    exact List.chain'_nil
  | succ n ihn =>
    intro s hs
    cases s with
    | nil => rw [squashRuns_nil]; exact List.chain'_nil
    | cons x rest =>
      rw [squashRuns_cons]
      by_cases hb : bad x = true
      · rw [if_pos hb]
        rw [List.chain'_cons']
        constructor
        · intro y hy
          rw [squashRuns_head_not_bad bad (rest.dropWhile bad)
            (head_dropWhile_not_bad bad rest)] at hy
          have := head_dropWhile_not_bad bad rest y hy
          simp [this]
        · exact ihn (rest.dropWhile bad) (by
            have := (@List.dropWhile_sublist Char rest bad).length_le
            have h2 : rest.length ≤ n := by simpa using hs
            omega)
      · rw [if_neg hb]
        rw [List.chain'_cons']
        refine ⟨fun y hy => by simp [hb], ?_⟩
        exact ihn rest (by simpa using Nat.le_of_succ_le_succ hs)

theorem squashRuns_eq_self (bad : Char → Bool) :
    ∀ s, (∀ c ∈ s, bad c = true → c = ' ') →
      List.Chain' (fun a b => ¬(a = ' ' ∧ b = ' ')) s → squashRuns bad s = s := by
  intro s
  induction s with
  | nil => intro _ _; exact squashRuns_nil bad
  | cons c rest ih =>
    intro hcs hch
    rw [List.chain'_cons'] at hch
    by_cases hb : bad c = true
    · have hc : c = ' ' := hcs c (List.mem_cons_self c rest) hb
      rw [squashRuns_cons, if_pos hb]
      have hdw : rest.dropWhile bad = rest := by
        cases rest with
        | nil => rfl
        | cons d rest2 =>
          have hd : ¬(c = ' ' ∧ d = ' ') := hch.1 d (by simp)
          have hdne : d ≠ ' ' := fun he => hd ⟨hc, he⟩
          have hbd : bad d = false := by
            by_contra hbd
            rw [Bool.not_eq_false] at hbd
            exact hdne (hcs d (by simp) hbd)
          rw [List.dropWhile_cons, if_neg (by simp [hbd])]
      rw [hdw, hc]
      congr 1
      exact ih (fun d hd hbd => hcs d (List.mem_cons_of_mem c hd) hbd) hch.2
    · rw [squashRuns_cons, if_neg hb]
      congr 1
      exact ih (fun d hd hbd => hcs d (List.mem_cons_of_mem c hd) hbd) hch.2

theorem prefixOf_squashRuns (bad : Char → Bool) (hsp : bad ' ' = true) :
    ∀ (u q : List Char), (∀ c ∈ q, bad c = false) →
      q.isPrefixOf (squashRuns bad u) = true → q.isPrefixOf u = true := by
  intro u
  induction u with
  | nil =>
    intro q hgood h
    rw [squashRuns_nil] at h
    exact h
  | cons c rest ih =>
    intro q hgood h
    rw [squashRuns_cons] at h
    by_cases hb : bad c = true
    · rw [if_pos hb] at h
      cases q with
      | nil => simp [List.isPrefixOf]
      | cons qh qt =>
        simp only [List.isPrefixOf, Bool.and_eq_true, beq_iff_eq] at h
        have : bad qh = false := hgood qh (List.mem_cons_self qh qt)
        rw [h.1, hsp] at this
        exact Bool.noConfusion this
    · rw [if_neg hb] at h
      cases q with
      | nil => simp [List.isPrefixOf]
      | cons qh qt =>
        simp only [List.isPrefixOf, Bool.and_eq_true] at h ⊢
        exact ⟨h.1, ih qt (fun d hd => hgood d (List.mem_cons_of_mem qh hd)) h.2⟩

theorem occursIn_squashRuns (bad : Char → Bool) (hsp : bad ' ' = true)
    (q : List Char) (hq : q ≠ []) (hgood : ∀ c ∈ q, bad c = false) :
    ∀ s, occursIn q s = false → occursIn q (squashRuns bad s) = false := by
  suffices H : ∀ n s, s.length ≤ n → occursIn q s = false →
      occursIn q (squashRuns bad s) = false by
    intro s; exact H s.length s le_rfl
  intro n
  induction n with
  | zero =>
    intro s hs _
    rw [List.length_eq_zero.mp (Nat.le_zero.mp hs), squashRuns_nil]
    simpa [occursIn, List.isEmpty_iff] using hq
  | succ n ihn =>
    intro s hs h
    cases s with
    | nil =>
      rw [squashRuns_nil]
      simpa [occursIn, List.isEmpty_iff] using hq
    | cons x rest =>
      rw [squashRuns_cons]
      by_cases hb : bad x = true
      · rw [if_pos hb]
        simp only [occursIn, Bool.or_eq_false_iff]
        constructor
        · cases q with
          | nil => exact absurd rfl hq
          | cons qh qt =>
            simp only [List.isPrefixOf, Bool.and_eq_false_iff]
            left
            have hqh : bad qh = false := hgood qh (List.mem_cons_self qh qt)
            cases hbe : qh == ' '
            · rfl
            · rw [beq_iff_eq] at hbe
              rw [hbe, hsp] at hqh
              exact Bool.noConfusion hqh
        · have hlen : (rest.dropWhile bad).length ≤ n := by
            have := (@List.dropWhile_sublist Char rest bad).length_le
            have h2 : rest.length ≤ n := by simpa using hs
            omega
          exact ihn (rest.dropWhile bad) hlen
            (occursIn_dropWhile q rest bad (occursIn_cons_tail q x rest h))
      · rw [if_neg hb]
        simp only [occursIn, Bool.or_eq_false_iff]
        constructor
        · by_contra hc
          rw [Bool.not_eq_false] at hc
          cases q with
          | nil => exact hq rfl
          | cons qh qt =>
            simp only [List.isPrefixOf, Bool.and_eq_true] at hc
            have hqt : qt.isPrefixOf rest = true :=
              prefixOf_squashRuns bad hsp rest qt
                (fun d hd => hgood d (List.mem_cons_of_mem qh hd)) hc.2
            have hqs : occursIn (qh :: qt) (x :: rest) = true := by
              simp [occursIn, List.isPrefixOf, hc.1, hqt]
            rw [hqs] at h
            exact Bool.noConfusion h
        · exact ihn rest (by simpa using Nat.le_of_succ_le_succ hs)
            (occursIn_cons_tail q x rest h)

/-! ### Facts about `pyStrip` -/

theorem pyStrip_eq_rdropWhile (cs : List Char) :
    pyStrip cs = (cs.dropWhile isPySpace).rdropWhile isPySpace := rfl

theorem pyStrip_middle (cs : List Char) : pyStrip cs <:+: cs := by
  rw [pyStrip_eq_rdropWhile]
  exact List.infix_iff_prefix_suffix.mpr
    ⟨cs.dropWhile isPySpace, List.rdropWhile_prefix isPySpace (cs.dropWhile isPySpace),
      List.dropWhile_suffix isPySpace⟩

theorem mem_pyStrip (cs : List Char) (c : Char) (h : c ∈ pyStrip cs) : c ∈ cs :=
  (pyStrip_middle cs).sublist.mem h

theorem occursIn_pyStrip_false (q cs : List Char) (h : occursIn q cs = false) :
    occursIn q (pyStrip cs) = false := by
  by_contra hc
  rw [Bool.not_eq_false] at hc
  rw [occursIn_of_middle q (pyStrip cs) cs (pyStrip_middle cs) hc] at h
  exact Bool.noConfusion h

theorem pyStrip_head (cs : List Char) :
    ∀ c ∈ (pyStrip cs).head?, isPySpace c = false := by
  intro c hc
  rw [pyStrip_eq_rdropWhile] at hc
  obtain ⟨t, ht⟩ := List.rdropWhile_prefix isPySpace (cs.dropWhile isPySpace)
  refine head_dropWhile_not_bad isPySpace cs c ?_
  rw [← ht, List.head?_append]
  rw [Option.mem_def] at hc
  rw [hc]
  rfl

theorem pyStrip_last (cs : List Char) :
    ∀ c ∈ (pyStrip cs).getLast?, isPySpace c = false := by
  intro c hc
  rw [pyStrip_eq_rdropWhile] at hc
  rw [Option.mem_def] at hc
  have hne : (cs.dropWhile isPySpace).rdropWhile isPySpace ≠ [] := by
    intro he
    rw [he] at hc
    exact Option.noConfusion hc
  have hlast := List.rdropWhile_last_not isPySpace (cs.dropWhile isPySpace) hne
  rw [List.getLast?_eq_getLast ((cs.dropWhile isPySpace).rdropWhile isPySpace) hne] at hc
  rw [Option.some_inj] at hc
  rw [hc] at hlast
  simpa using hlast

theorem pyStrip_eq_self (cs : List Char)
    (hh : ∀ c ∈ cs.head?, isPySpace c = false)
    (hl : ∀ c ∈ cs.getLast?, isPySpace c = false) : pyStrip cs = cs := by
  rw [pyStrip_eq_rdropWhile]
  have hdw : cs.dropWhile isPySpace = cs := by
    cases cs with
    | nil => rfl
    | cons c rest =>
      rw [List.dropWhile_cons, if_neg (by simp [hh c (by simp)])]
  rw [hdw]
  rw [List.rdropWhile_eq_self_iff]
  intro hne
  have := hl (cs.getLast hne)
    (by rw [List.getLast?_eq_getLast cs hne]; exact rfl)
  simp [this]

/-! ### Chains and pointwise identities -/

theorem chain_imp_of_mem {R S : Char → Char → Prop} :
    ∀ l : List Char, (∀ a ∈ l, ∀ b ∈ l, R a b → S a b) →
      List.Chain' R l → List.Chain' S l := by
  intro l
  induction l with
  | nil => intro _ _; exact List.chain'_nil
  | cons x rest ih =>
    intro hmem hch
    rw [List.chain'_cons'] at hch ⊢
    constructor
    · intro y hy
      exact hmem x (List.mem_cons_self x rest) y
        (List.mem_cons_of_mem x (List.mem_of_mem_head? hy)) (hch.1 y hy)
    · exact ih (fun a ha b hb => hmem a (List.mem_cons_of_mem x ha)
        b (List.mem_cons_of_mem x hb)) hch.2

theorem flatMap_eq_self (f : Char → List Char) :
    ∀ l : List Char, (∀ c ∈ l, f c = [c]) → l.flatMap f = l := by
  intro l
  induction l with
  | nil => intro _; rfl
  | cons c rest ih =>
    intro h
    rw [List.flatMap_cons, h c (List.mem_cons_self c rest),
      ih (fun d hd => h d (List.mem_cons_of_mem c hd))]
    rfl

theorem map_eq_self (g : Char → Char) :
    ∀ l : List Char, (∀ c ∈ l, g c = c) → l.map g = l := by
  intro l
  induction l with
  | nil => intro _; rfl
  | cons c rest ih =>
    intro h
    rw [List.map_cons, h c (List.mem_cons_self c rest),
      ih (fun d hd => h d (List.mem_cons_of_mem c hd))]

/-! ### `normalize_name` building blocks -/

theorem lowerAlnum_or_space_toNat (c : Char) (h : isLowerAlnum c = true ∨ c = ' ') :
    (97 ≤ c.toNat ∧ c.toNat ≤ 122) ∨ (48 ≤ c.toNat ∧ c.toNat ≤ 57) ∨ c.toNat = 32 := by
  have ea : 'a'.toNat = 97 := rfl
  have ez : 'z'.toNat = 122 := rfl
  have e0 : '0'.toNat = 48 := rfl
  have e9 : '9'.toNat = 57 := rfl
  rcases h with h | h
  · simp only [isLowerAlnum, Bool.or_eq_true, Bool.and_eq_true, char_le_iff_toNat,
      decide_eq_true_eq, ea, ez, e0, e9] at h
    tauto
  · subst h; right; right; rfl

theorem pyLowerChar_fixed (c : Char) (h : isLowerAlnum c = true ∨ c = ' ') :
    pyLowerChar c = c := by
  have hval := lowerAlnum_or_space_toNat c h
  have hne : ∀ d : Char, 122 < d.toNat → ¬ c = d := by
    intro d hd he
    rw [char_eq_iff_toNat] at he
    omega
  have hAZ : ('A' ≤ c && c ≤ 'Z') ≠ true := by
    have eA : 'A'.toNat = 65 := rfl
    have eZ : 'Z'.toNat = 90 := rfl
    simp only [ne_eq, Bool.and_eq_true, char_le_iff_toNat, decide_eq_true_eq, eA, eZ,
      not_and, not_le]
    omega
  unfold pyLowerChar
  rw [if_neg hAZ, if_neg (hne 'Ä' (by decide)), if_neg (hne 'Ö' (by decide)),
    if_neg (hne 'Ü' (by decide)), if_neg (hne 'Á' (by decide)),
    if_neg (hne 'À' (by decide)), if_neg (hne 'Â' (by decide)),
    if_neg (hne 'É' (by decide)), if_neg (hne 'È' (by decide)),
    if_neg (hne 'Ê' (by decide)), if_neg (hne 'Í' (by decide)),
    if_neg (hne 'Ì' (by decide)), if_neg (hne 'Î' (by decide)),
    if_neg (hne 'Ó' (by decide)), if_neg (hne 'Ò' (by decide)),
    if_neg (hne 'Ô' (by decide)), if_neg (hne 'Ú' (by decide)),
    if_neg (hne 'Ù' (by decide)), if_neg (hne 'Û' (by decide))]

theorem accentExpand_fixed (c : Char) (h : isLowerAlnum c = true ∨ c = ' ') :
    accentExpand c = [c] := by
  have hval := lowerAlnum_or_space_toNat c h
  have hne : ∀ d : Char, 122 < d.toNat → ¬ c = d := by
    intro d hd he
    rw [char_eq_iff_toNat] at he
    omega
  have hor : ∀ d₁ d₂ d₃ : Char, 122 < d₁.toNat → 122 < d₂.toNat → 122 < d₃.toNat →
      (c = d₁ || c = d₂ || c = d₃) ≠ true := by
    intro d₁ d₂ d₃ h1 h2 h3 hcon
    simp only [Bool.or_eq_true, decide_eq_true_eq] at hcon
    rcases hcon with (hc | hc) | hc <;> (rw [char_eq_iff_toNat] at hc; omega)
  unfold accentExpand
  rw [if_neg (hne 'ä' (by decide)), if_neg (hne 'ö' (by decide)),
    if_neg (hne 'ü' (by decide)), if_neg (hne 'ß' (by decide)),
    if_neg (hor 'á' 'à' 'â' (by decide) (by decide) (by decide)),
    if_neg (hor 'é' 'è' 'ê' (by decide) (by decide) (by decide)),
    if_neg (hor 'í' 'ì' 'î' (by decide) (by decide) (by decide)),
    if_neg (hor 'ó' 'ò' 'ô' (by decide) (by decide) (by decide)),
    if_neg (hor 'ú' 'ù' 'û' (by decide) (by decide) (by decide))]

theorem normalizeNameChars_spec (cs : List Char) :
    WellFormedName (normalizeNameChars cs)
      ∧ occursIn "muenster".data (normalizeNameChars cs) = false
      ∧ occursIn "mnster".data (normalizeNameChars cs) = false := by
  have hmr : ("munster".data : List Char) = 'm' :: "unster".data := rfl
  set u1 := ((cs.map pyLowerChar).flatMap accentExpand) with hu1
  set u2 := replaceAll "muenster".data "munster".data u1 with hu2
  set u3 := replaceAll "mnster".data "munster".data u2 with hu3
  set w1 := squashRuns (fun c => !isLowerAlnum c) u3 with hw1
  set w2 := squashRuns isPySpace w1 with hw2
  have hform : normalizeNameChars cs = pyStrip w2 := rfl
  -- occurrence bookkeeping through every stage
  have hocc1 : occursIn "muenster".data u2 = false := by
    rw [hu2, hmr]
    exact occursIn_replaceAll_self "muenster".data 'm' "unster".data (by decide)
      (by decide) (by decide) u1
  have hocc2 : occursIn "mnster".data u3 = false := by
    rw [hu3, hmr]
    exact occursIn_replaceAll_self "mnster".data 'm' "unster".data (by decide)
      (by decide) (by decide) u2
  have hocc3 : occursIn "muenster".data u3 = false := by
    rw [hu3, hmr]
    exact occursIn_replaceAll_other "muenster".data "mnster".data 'm' "unster".data
      (by decide) (by decide) (by decide) u2 hocc1
  have hgood1 : ∀ c ∈ ("muenster".data : List Char), (!isLowerAlnum c) = false := by decide
  have hgood2 : ∀ c ∈ ("mnster".data : List Char), (!isLowerAlnum c) = false := by decide
  have hgood1s : ∀ c ∈ ("muenster".data : List Char), isPySpace c = false := by decide
  have hgood2s : ∀ c ∈ ("mnster".data : List Char), isPySpace c = false := by decide
  have hocc4 : occursIn "muenster".data w1 = false :=
    occursIn_squashRuns (fun c => !isLowerAlnum c) (by decide) "muenster".data
      (by decide) hgood1 u3 hocc3
  have hocc5 : occursIn "mnster".data w1 = false :=
    occursIn_squashRuns (fun c => !isLowerAlnum c) (by decide) "mnster".data
      (by decide) hgood2 u3 hocc2
  have hocc6 : occursIn "muenster".data w2 = false :=
    occursIn_squashRuns isPySpace (by decide) "muenster".data (by decide) hgood1s w1 hocc4
  have hocc7 : occursIn "mnster".data w2 = false :=
    occursIn_squashRuns isPySpace (by decide) "mnster".data (by decide) hgood2s w1 hocc5
  refine ⟨⟨?_, ?_, ?_, ?_⟩, ?_, ?_⟩
  · -- character classes
    intro c hc
    rw [hform] at hc
    have hc2 := mem_pyStrip w2 c hc
    rw [hw2] at hc2
    rcases mem_squashRuns isPySpace w1 c hc2 with h | ⟨_, hmem⟩
    · right; exact h
    · rw [hw1] at hmem
      rcases mem_squashRuns (fun c => !isLowerAlnum c) u3 c hmem with h | ⟨hb, _⟩
      · right; exact h
      · left; simpa using hb
  · -- no two adjacent spaces
    rw [hform]
    refine List.Chain'.infix ?_ (pyStrip_middle w2)
    refine chain_imp_of_mem w2 ?_ (chain_squashRuns isPySpace w1)
    intro a _ b _ hR hab
    exact hR ⟨by rw [hab.1]; decide, by rw [hab.2]; decide⟩
  · -- no leading space
    rw [hform]
    intro c hc he
    have := pyStrip_head w2 c hc
    rw [he] at this
    exact Bool.noConfusion this
  · -- no trailing space
    rw [hform]
    intro c hc he
    have := pyStrip_last w2 c hc
    rw [he] at this
    exact Bool.noConfusion this
  · rw [hform]; exact occursIn_pyStrip_false "muenster".data w2 hocc6
  · rw [hform]; exact occursIn_pyStrip_false "mnster".data w2 hocc7

theorem normalizeNameChars_fixed (t : List Char) (hwf : WellFormedName t)
    (h1 : occursIn "muenster".data t = false)
    (h2 : occursIn "mnster".data t = false) :
    normalizeNameChars t = t := by
  obtain ⟨hcs, hch, hhd, hlt⟩ := hwf
  have s1 : t.map pyLowerChar = t :=
    map_eq_self pyLowerChar t (fun c hc => pyLowerChar_fixed c (hcs c hc))
  have s2 : t.flatMap accentExpand = t :=
    flatMap_eq_self accentExpand t (fun c hc => accentExpand_fixed c (hcs c hc))
  have s3 : replaceAll "muenster".data "munster".data t = t :=
    replaceAll_eq_self "muenster".data "munster".data t h1
  have s4 : replaceAll "mnster".data "munster".data t = t :=
    replaceAll_eq_self "mnster".data "munster".data t h2
  have s5 : squashRuns (fun c => !isLowerAlnum c) t = t := by
    refine squashRuns_eq_self (fun c => !isLowerAlnum c) t ?_ hch
    intro c hc hb
    rcases hcs c hc with h | h
    · simp only [h, Bool.not_true] at hb
      exact Bool.noConfusion hb
    · exact h
  have s6 : squashRuns isPySpace t = t := by
    refine squashRuns_eq_self isPySpace t ?_ hch
    intro c hc hb
    rcases hcs c hc with h | h
    · rw [isPySpace_eq_false_of_isLowerAlnum c h] at hb
      exact Bool.noConfusion hb
    · exact h
  have s7 : pyStrip t = t := by
    refine pyStrip_eq_self t ?_ ?_
    · intro c hc
      rcases hcs c (List.mem_of_mem_head? hc) with h | h
      · exact isPySpace_eq_false_of_isLowerAlnum c h
      · exact absurd h (hhd c hc)
    · intro c hc
      rcases hcs c (List.mem_of_mem_getLast? hc) with h | h
      · exact isPySpace_eq_false_of_isLowerAlnum c h
      · exact absurd h (hlt c hc)
  rw [normalizeNameChars, s1, s2, s3, s4, s5, s6, s7]

/-! ### `parse_kickoff` correctness -/

theorem isDigit_iff_toNat (c : Char) : c.isDigit = true ↔ 48 ≤ c.toNat ∧ c.toNat ≤ 57 := by
  unfold Char.isDigit
  simp only [Bool.and_eq_true, decide_eq_true_eq, ge_iff_le]
  constructor
  · rintro ⟨h1, h2⟩
    exact ⟨by exact_mod_cast h1, by exact_mod_cast h2⟩
  · rintro ⟨h1, h2⟩
    exact ⟨by exact_mod_cast h1, by exact_mod_cast h2⟩

theorem isPySpace_eq_false_of_isDigit (c : Char) (h : c.isDigit = true) :
    isPySpace c = false := by
  rw [isDigit_iff_toNat] at h
  have es : ' '.toNat = 32 := rfl
  have et : '\t'.toNat = 9 := rfl
  have en : '\n'.toNat = 10 := rfl
  have er : '\r'.toNat = 13 := rfl
  have ev : '\x0b'.toNat = 11 := rfl
  have ef : '\x0c'.toNat = 12 := rfl
  have el : '\x85'.toNat = 133 := rfl
  have eb : '\xa0'.toNat = 160 := rfl
  simp only [isPySpace, char_eq_iff_toNat, es, et, en, er, ev, ef, el, eb,
    Bool.or_eq_false_iff, decide_eq_false_iff_not]
  omega

theorem isDigit_eq_false_of_isPySpace (c : Char) (h : isPySpace c = true) :
    c.isDigit = false := by
  by_contra hc
  rw [Bool.not_eq_false] at hc
  rw [isPySpace_eq_false_of_isDigit c hc] at h
  exact Bool.noConfusion h

theorem span_exact (p : Char → Bool) (a : List Char) (c : Char) (rest : List Char)
    (ha : ∀ x ∈ a, p x = true) (hc : p c = false) :
    (a ++ c :: rest).takeWhile p = a ∧ (a ++ c :: rest).dropWhile p = c :: rest := by
  induction a with
  | nil =>
    simp [List.takeWhile_cons, List.dropWhile_cons, hc]
  | cons x xs ih =>
    have hx : p x = true := ha x (List.mem_cons_self x xs)
    have := ih (fun z hz => ha z (List.mem_cons_of_mem x hz))
    simp [List.takeWhile_cons, List.dropWhile_cons, hx, this.1, this.2]

theorem span_all (p : Char → Bool) (l : List Char) (h : ∀ x ∈ l, p x = true) :
    l.takeWhile p = l ∧ l.dropWhile p = [] :=
  ⟨List.takeWhile_eq_self_iff.mpr h, List.dropWhile_eq_nil_iff.mpr h⟩

theorem parseNum2_sound (lo hi : Nat) (cs : List Char) (n : Nat) (rest : List Char)
    (h : parseNum2 lo hi cs = some (n, rest)) :
    ∃ run, cs = run ++ rest ∧ (∀ c ∈ run, c.isDigit = true) ∧ 1 ≤ run.length
      ∧ run.length ≤ 2 ∧ lo ≤ n ∧ n ≤ hi ∧ n = digitsToNat run := by
  simp only [parseNum2] at h
  split at h
  · rename_i hcond
    rw [Option.some_inj, Prod.mk.injEq] at h
    refine ⟨cs.takeWhile Char.isDigit, ?_, ?_, hcond.1, hcond.2.1, ?_, ?_, ?_⟩
    · rw [← h.2, List.takeWhile_append_dropWhile]
    · intro c hc; exact List.mem_takeWhile_imp hc
    · rw [h.1] at hcond; exact hcond.2.2.1
    · rw [h.1] at hcond; exact hcond.2.2.2
    · exact h.1.symm
  · exact Option.noConfusion h

theorem parseNum2_complete (lo hi : Nat) (a : List Char) (c : Char) (rest : List Char)
    (ha : ∀ x ∈ a, x.isDigit = true) (hc : c.isDigit = false)
    (h1 : 1 ≤ a.length) (h2 : a.length ≤ 2)
    (hlo : lo ≤ digitsToNat a) (hhi : digitsToNat a ≤ hi) :
    parseNum2 lo hi (a ++ c :: rest) = some (digitsToNat a, c :: rest) := by
  unfold parseNum2
  have hspan := span_exact Char.isDigit a c rest ha hc
  rw [hspan.1, hspan.2]
  rw [if_pos ⟨h1, h2, hlo, hhi⟩]

theorem parseYear4_sound (cs : List Char) (n : Nat) (rest : List Char)
    (h : parseYear4 cs = some (n, rest)) :
    ∃ run, cs = run ++ rest ∧ (∀ c ∈ run, c.isDigit = true) ∧ run.length = 4
      ∧ n = digitsToNat run := by
  simp only [parseYear4] at h
  split at h
  · rename_i hcond
    rw [Option.some_inj, Prod.mk.injEq] at h
    refine ⟨cs.takeWhile Char.isDigit, ?_, ?_, hcond, h.1.symm⟩
    · rw [← h.2, List.takeWhile_append_dropWhile]
    · intro c hc; exact List.mem_takeWhile_imp hc
  · exact Option.noConfusion h

theorem parseYear4_complete (a : List Char) (c : Char) (rest : List Char)
    (ha : ∀ x ∈ a, x.isDigit = true) (hc : c.isDigit = false) (h4 : a.length = 4) :
    parseYear4 (a ++ c :: rest) = some (digitsToNat a, c :: rest) := by
  unfold parseYear4
  have hspan := span_exact Char.isDigit a c rest ha hc
  rw [hspan.1, hspan.2, if_pos h4]

theorem expectChar_sound (c : Char) (cs rest : List Char)
    (h : expectChar c cs = some rest) : cs = c :: rest := by
  cases cs with
  | nil => exact Option.noConfusion h
  | cons d tl =>
    simp only [expectChar] at h
    split at h
    · rename_i he
      rw [Option.some_inj] at h
      rw [he, h]
    · exact Option.noConfusion h

theorem expectChar_complete (c : Char) (rest : List Char) :
    expectChar c (c :: rest) = some rest := by
  simp [expectChar]

theorem skipWs1_sound (cs rest : List Char) (h : skipWs1 cs = some rest) :
    ∃ ws, cs = ws ++ rest ∧ (∀ c ∈ ws, isPySpace c = true) ∧ 1 ≤ ws.length
      ∧ rest = cs.dropWhile isPySpace := by
  cases cs with
  | nil => exact Option.noConfusion h
  | cons c tl =>
    simp only [skipWs1] at h
    split at h
    · rename_i hsp
      rw [Option.some_inj] at h
      refine ⟨(c :: tl).takeWhile isPySpace, ?_, ?_, ?_, h.symm⟩
      · rw [← h, List.takeWhile_append_dropWhile]
      · intro x hx; exact List.mem_takeWhile_imp hx
      · rw [List.takeWhile_cons, if_pos hsp]
        simp
    · exact Option.noConfusion h

theorem skipWs1_complete (ws : List Char) (c : Char) (rest : List Char)
    (hws : ∀ x ∈ ws, isPySpace x = true) (h1 : 1 ≤ ws.length)
    (hc : isPySpace c = false) :
    skipWs1 (ws ++ c :: rest) = some (c :: rest) := by
  cases ws with
  | nil => simp at h1
  | cons w wtl =>
    have hw : isPySpace w = true := hws w (List.mem_cons_self w wtl)
    have hspan := span_exact isPySpace (w :: wtl) c rest hws hc
    unfold skipWs1
    simp only [List.cons_append]
    rw [if_pos hw]
    rw [Option.some_inj]
    have := hspan.2
    simpa using this

theorem parseNum2_complete_end (lo hi : Nat) (a : List Char)
    (ha : ∀ x ∈ a, x.isDigit = true) (h1 : 1 ≤ a.length) (h2 : a.length ≤ 2)
    (hlo : lo ≤ digitsToNat a) (hhi : digitsToNat a ≤ hi) :
    parseNum2 lo hi a = some (digitsToNat a, []) := by
  unfold parseNum2
  have hspan := span_all Char.isDigit a ha
  rw [hspan.1, hspan.2, if_pos ⟨h1, h2, hlo, hhi⟩]

theorem daysInMonth_le (y m : Nat) : daysInMonth y m ≤ 31 := by
  unfold daysInMonth
  split
  · split <;> omega
  · split <;> omega

theorem strptimeKickoffText_sound (cs : List Char) (d m y h mi s : Nat)
    (hp : strptimeKickoffText cs = some (d, m, y, h, mi, s)) :
    ∃ dd mm yyyy ws hh mis ss,
      cs = dd ++ '.' :: (mm ++ '.' :: (yyyy ++ (ws ++ (hh ++ ':' :: (mis ++ ':' :: ss)))))
      ∧ (∀ c ∈ dd, c.isDigit = true) ∧ 1 ≤ dd.length ∧ dd.length ≤ 2
      ∧ (∀ c ∈ mm, c.isDigit = true) ∧ 1 ≤ mm.length ∧ mm.length ≤ 2
      ∧ (∀ c ∈ yyyy, c.isDigit = true) ∧ yyyy.length = 4
      ∧ (∀ c ∈ ws, isPySpace c = true) ∧ 1 ≤ ws.length
      ∧ (∀ c ∈ hh, c.isDigit = true) ∧ 1 ≤ hh.length ∧ hh.length ≤ 2
      ∧ (∀ c ∈ mis, c.isDigit = true) ∧ 1 ≤ mis.length ∧ mis.length ≤ 2
      ∧ (∀ c ∈ ss, c.isDigit = true) ∧ 1 ≤ ss.length ∧ ss.length ≤ 2
      ∧ d = digitsToNat dd ∧ m = digitsToNat mm ∧ y = digitsToNat yyyy
      ∧ h = digitsToNat hh ∧ mi = digitsToNat mis ∧ s = digitsToNat ss := by
  rw [strptimeKickoffText] at hp
  simp only [Option.bind_eq_bind] at hp
  cases h1 : parseNum2 1 31 cs with
  | none => rw [h1, Option.none_bind] at hp; exact Option.noConfusion hp
  | some pr1 =>
  obtain ⟨dv, cs1⟩ := pr1
  rw [h1, Option.some_bind] at hp
  cases h2 : expectChar '.' cs1 with
  | none => rw [h2, Option.none_bind] at hp; exact Option.noConfusion hp
  | some cs2 =>
  rw [h2, Option.some_bind] at hp
  cases h3 : parseNum2 1 12 cs2 with
  | none => rw [h3, Option.none_bind] at hp; exact Option.noConfusion hp
  | some pr3 =>
  obtain ⟨mv, cs3⟩ := pr3
  rw [h3, Option.some_bind] at hp
  cases h4 : expectChar '.' cs3 with
  | none => rw [h4, Option.none_bind] at hp; exact Option.noConfusion hp
  | some cs4 =>
  rw [h4, Option.some_bind] at hp
  cases h5 : parseYear4 cs4 with
  | none => rw [h5, Option.none_bind] at hp; exact Option.noConfusion hp
  | some pr5 =>
  obtain ⟨yv, cs5⟩ := pr5
  rw [h5, Option.some_bind] at hp
  cases h6 : skipWs1 cs5 with
  | none => rw [h6, Option.none_bind] at hp; exact Option.noConfusion hp
  | some cs6 =>
  rw [h6, Option.some_bind] at hp
  cases h7 : parseNum2 0 23 cs6 with
  | none => rw [h7, Option.none_bind] at hp; exact Option.noConfusion hp
  | some pr7 =>
  obtain ⟨hv, cs7⟩ := pr7
  rw [h7, Option.some_bind] at hp
  cases h8 : expectChar ':' cs7 with
  | none => rw [h8, Option.none_bind] at hp; exact Option.noConfusion hp
  | some cs8 =>
  rw [h8, Option.some_bind] at hp
  cases h9 : parseNum2 0 59 cs8 with
  | none => rw [h9, Option.none_bind] at hp; exact Option.noConfusion hp
  | some pr9 =>
  obtain ⟨miv, cs9⟩ := pr9
  rw [h9, Option.some_bind] at hp
  cases h10 : expectChar ':' cs9 with
  | none => rw [h10, Option.none_bind] at hp; exact Option.noConfusion hp
  | some cs10 =>
  rw [h10, Option.some_bind] at hp
  cases h11 : parseNum2 0 61 cs10 with
  | none => rw [h11, Option.none_bind] at hp; exact Option.noConfusion hp
  | some pr11 =>
  obtain ⟨sv, cs11⟩ := pr11
  rw [h11, Option.some_bind] at hp
  split at hp
  · rename_i hnil0
    have hnil : cs11 = [] := hnil0
    simp only [Option.some_inj, Prod.mk.injEq] at hp
    obtain ⟨hd, hm, hy, hh, hmi, hs⟩ := hp
    obtain ⟨dd, hcs, hdd1, hdd2, hdd3, _, _, hdv⟩ := parseNum2_sound 1 31 cs dv cs1 h1
    have hcs1 := expectChar_sound '.' cs1 cs2 h2
    obtain ⟨mm, hcs2, hmm1, hmm2, hmm3, _, _, hmv⟩ := parseNum2_sound 1 12 cs2 mv cs3 h3
    have hcs3 := expectChar_sound '.' cs3 cs4 h4
    obtain ⟨yyyy, hcs4, hyy1, hyy2, hyv⟩ := parseYear4_sound cs4 yv cs5 h5
    obtain ⟨ws, hcs5, hws1, hws2, _⟩ := skipWs1_sound cs5 cs6 h6
    obtain ⟨hhr, hcs6, hhh1, hhh2, hhh3, _, _, hhv⟩ := parseNum2_sound 0 23 cs6 hv cs7 h7
    have hcs7 := expectChar_sound ':' cs7 cs8 h8
    obtain ⟨mir, hcs8, hmi1, hmi2, hmi3, _, _, hmiv⟩ := parseNum2_sound 0 59 cs8 miv cs9 h9
    have hcs9 := expectChar_sound ':' cs9 cs10 h10
    obtain ⟨ssr, hcs10, hss1, hss2, hss3, _, _, hsv⟩ := parseNum2_sound 0 61 cs10 sv cs11 h11
    refine ⟨dd, mm, yyyy, ws, hhr, mir, ssr, ?_, hdd1, hdd2, hdd3, hmm1, hmm2, hmm3,
      hyy1, hyy2, hws1, hws2, hhh1, hhh2, hhh3, hmi1, hmi2, hmi3, hss1, hss2, hss3,
      ?_, ?_, ?_, ?_, ?_, ?_⟩
    · rw [hcs, hcs1, hcs2, hcs3, hcs4, hcs5, hcs6, hcs7, hcs8, hcs9, hcs10, hnil,
        List.append_nil]
    · rw [← hd, hdv]
    · rw [← hm, hmv]
    · rw [← hy, hyv]
    · rw [← hh, hhv]
    · rw [← hmi, hmiv]
    · rw [← hs, hsv]
  · exact Option.noConfusion hp

theorem strptimeKickoffText_complete (dd mm yyyy ws hh mis ss : List Char)
    (hdd1 : ∀ c ∈ dd, c.isDigit = true) (hdd2 : 1 ≤ dd.length) (hdd3 : dd.length ≤ 2)
    (hmm1 : ∀ c ∈ mm, c.isDigit = true) (hmm2 : 1 ≤ mm.length) (hmm3 : mm.length ≤ 2)
    (hyy1 : ∀ c ∈ yyyy, c.isDigit = true) (hyy2 : yyyy.length = 4)
    (hws1 : ∀ c ∈ ws, isPySpace c = true) (hws2 : 1 ≤ ws.length)
    (hhh1 : ∀ c ∈ hh, c.isDigit = true) (hhh2 : 1 ≤ hh.length) (hhh3 : hh.length ≤ 2)
    (hmi1 : ∀ c ∈ mis, c.isDigit = true) (hmi2 : 1 ≤ mis.length) (hmi3 : mis.length ≤ 2)
    (hss1 : ∀ c ∈ ss, c.isDigit = true) (hss2 : 1 ≤ ss.length) (hss3 : ss.length ≤ 2)
    (hdlo : 1 ≤ digitsToNat dd) (hdhi : digitsToNat dd ≤ 31)
    (hmlo : 1 ≤ digitsToNat mm) (hmhi : digitsToNat mm ≤ 12)
    (hhhi : digitsToNat hh ≤ 23) (hmihi : digitsToNat mis ≤ 59)
    (hshi : digitsToNat ss ≤ 61) :
    strptimeKickoffText
        (dd ++ '.' :: (mm ++ '.' :: (yyyy ++ (ws ++ (hh ++ ':' :: (mis ++ ':' :: ss))))))
      = some (digitsToNat dd, digitsToNat mm, digitsToNat yyyy,
          digitsToNat hh, digitsToNat mis, digitsToNat ss) := by
  cases ws with
  | nil => simp at hws2
  | cons w wtl =>
  cases hh with
  | nil => simp at hhh2
  | cons h0 htl =>
  have hw : isPySpace w = true := hws1 w (List.mem_cons_self w wtl)
  have hwd : w.isDigit = false := isDigit_eq_false_of_isPySpace w hw
  have hhd : isPySpace h0 = false :=
    isPySpace_eq_false_of_isDigit h0 (hhh1 h0 (List.mem_cons_self h0 htl))
  rw [strptimeKickoffText]
  simp only [Option.bind_eq_bind]
  rw [parseNum2_complete 1 31 dd '.' _ hdd1 (by decide) hdd2 hdd3 hdlo hdhi,
    Option.some_bind, expectChar_complete, Option.some_bind,
    parseNum2_complete 1 12 mm '.' _ hmm1 (by decide) hmm2 hmm3 hmlo hmhi,
    Option.some_bind, expectChar_complete, Option.some_bind]
  have hyr : yyyy ++ ((w :: wtl) ++ ((h0 :: htl) ++ ':' :: (mis ++ ':' :: ss)))
      = yyyy ++ w :: (wtl ++ ((h0 :: htl) ++ ':' :: (mis ++ ':' :: ss))) := by
    simp
  rw [hyr, parseYear4_complete yyyy w _ hyy1 hwd hyy2, Option.some_bind]
  have hwr : w :: (wtl ++ ((h0 :: htl) ++ ':' :: (mis ++ ':' :: ss)))
      = (w :: wtl) ++ (h0 :: (htl ++ ':' :: (mis ++ ':' :: ss))) := by
    simp
  rw [hwr, skipWs1_complete (w :: wtl) h0 _ hws1 hws2 hhd, Option.some_bind]
  have hhr : h0 :: (htl ++ ':' :: (mis ++ ':' :: ss))
      = (h0 :: htl) ++ ':' :: (mis ++ ':' :: ss) := by
    simp
  rw [hhr, parseNum2_complete 0 23 (h0 :: htl) ':' _ hhh1 (by decide) hhh2 hhh3
      (Nat.zero_le _) hhhi, Option.some_bind, expectChar_complete, Option.some_bind,
    parseNum2_complete 0 59 mis ':' _ hmi1 (by decide) hmi2 hmi3 (Nat.zero_le _) hmihi,
    Option.some_bind, expectChar_complete, Option.some_bind,
    parseNum2_complete_end 0 61 ss hss1 hss2 hss3 (Nat.zero_le _) hshi, Option.some_bind]
  rw [if_pos rfl]

/-- C3: `parse_kickoff` returns an aware datetime carrying the Berlin
timezone exactly when the stripped inputs joined by one space match
`%d.%m.%Y %H:%M:%S` (including the `datetime` range validation that
`strptime` performs); every other input yields the `ValueError` modelled by
`none`. -/
theorem parse_kickoff_spec (ds ts : String) :
    ((parse_kickoff ds ts).isSome ↔ KickoffFormat (kickoffCombined ds ts))
      ∧ ∀ dt, parse_kickoff ds ts = some dt → dt.tzinfo = some BERLIN_TZ := by
  constructor
  · constructor
    · intro hs
      rw [parse_kickoff] at hs
      cases htext : strptimeKickoffText (kickoffCombined ds ts) with
      | none => rw [htext] at hs; simp at hs
      | some tup =>
        obtain ⟨d, m, y, h, mi, s⟩ := tup
        rw [htext] at hs
        dsimp only at hs
        by_cases hval : datetimeValid y m d h mi s = true
        · obtain ⟨dd, mm, yyyy, ws, hhr, mir, ssr, hdec, c1, c2, c3, c4, c5, c6, c7, c8,
            c9, c10, c11, c12, c13, c14, c15, c16, c17, c18, c19, e1, e2, e3, e4, e5, e6⟩ :=
            strptimeKickoffText_sound (kickoffCombined ds ts) d m y h mi s htext
          refine ⟨dd, mm, yyyy, ws, hhr, mir, ssr, hdec, c1, c2, c3, c4, c5, c6, c7, c8,
            c9, c10, c11, c12, c13, c14, c15, c16, c17, c18, c19, ?_⟩
          rw [← e1, ← e2, ← e3, ← e4, ← e5, ← e6]
          exact hval
        · rw [if_neg hval] at hs
          simp at hs
    · intro hfmt
      obtain ⟨dd, mm, yyyy, ws, hhr, mir, ssr, hdec, c1, c2, c3, c4, c5, c6, c7, c8,
        c9, c10, c11, c12, c13, c14, c15, c16, c17, c18, c19, hval⟩ := hfmt
      have hvals : 1 ≤ digitsToNat dd ∧ digitsToNat dd ≤ 31
          ∧ 1 ≤ digitsToNat mm ∧ digitsToNat mm ≤ 12
          ∧ digitsToNat hhr ≤ 23 ∧ digitsToNat mir ≤ 59 ∧ digitsToNat ssr ≤ 61 := by
        have hle := daysInMonth_le (digitsToNat yyyy) (digitsToNat mm)
        simp only [datetimeValid, Bool.and_eq_true, decide_eq_true_eq] at hval
        omega
      have hcompl := strptimeKickoffText_complete dd mm yyyy ws hhr mir ssr
        c1 c2 c3 c4 c5 c6 c7 c8 c9 c10 c11 c12 c13 c14 c15 c16 c17 c18 c19
        hvals.1 hvals.2.1 hvals.2.2.1 hvals.2.2.2.1 hvals.2.2.2.2.1
        hvals.2.2.2.2.2.1 hvals.2.2.2.2.2.2
      rw [parse_kickoff, hdec, hcompl]
      dsimp only
      rw [if_pos hval]
      rfl
  · intro dt hdt
    rw [parse_kickoff] at hdt
    cases htext : strptimeKickoffText (kickoffCombined ds ts) with
    | none => rw [htext] at hdt; exact Option.noConfusion hdt
    | some tup =>
      obtain ⟨d, m, y, h, mi, s⟩ := tup
      rw [htext] at hdt
      dsimp only at hdt
      by_cases hval : datetimeValid y m d h mi s = true
      · rw [if_pos hval, Option.some_inj] at hdt
        rw [← hdt]
      · rw [if_neg hval] at hdt
        exact Option.noConfusion hdt

theorem parse_kickoff_spec_witness :
    KickoffFormat (kickoffCombined "12.10.2025" "18:30:00")
      ∧ (PyDateTime.mk 2025 10 12 18 30 0 (some BERLIN_TZ)).tzinfo = some BERLIN_TZ :=
  ⟨(parse_kickoff_spec "12.10.2025" "18:30:00").1.mp (by decide),
   (parse_kickoff_spec "12.10.2025" "18:30:00").2
     (PyDateTime.mk 2025 10 12 18 30 0 (some BERLIN_TZ)) (by decide)⟩

/-! ### `parse_date_label` correctness -/

theorem digitsToNat_foldl_lt (a : List Char) (ha : ∀ c ∈ a, c.isDigit = true) :
    ∀ acc, a.foldl (fun acc c => acc * 10 + (c.toNat - '0'.toNat)) acc
      < (acc + 1) * 10 ^ a.length := by
  induction a with
  | nil => intro acc; simp only [List.foldl_nil, List.length_nil, pow_zero, mul_one]; omega
  | cons c cs ih =>
    intro acc
    have hc := (isDigit_iff_toNat c).mp (ha c (List.mem_cons_self c cs))
    have h9 : c.toNat - '0'.toNat ≤ 9 := by
      have e0 : '0'.toNat = 48 := rfl
      omega
    have hrec := ih (fun d hd => ha d (List.mem_cons_of_mem c hd))
      (acc * 10 + (c.toNat - '0'.toNat))
    simp only [List.foldl_cons, List.length_cons]
    calc List.foldl (fun acc c => acc * 10 + (c.toNat - '0'.toNat))
          (acc * 10 + (c.toNat - '0'.toNat)) cs
        < (acc * 10 + (c.toNat - '0'.toNat) + 1) * 10 ^ cs.length := hrec
      _ ≤ ((acc + 1) * 10) * 10 ^ cs.length := by
          have : acc * 10 + (c.toNat - '0'.toNat) + 1 ≤ (acc + 1) * 10 := by omega
          exact Nat.mul_le_mul_right _ this
      _ = (acc + 1) * 10 ^ (cs.length + 1) := by ring

theorem digitsToNat_lt (a : List Char) (ha : ∀ c ∈ a, c.isDigit = true) :
    digitsToNat a < 10 ^ a.length := by
  have := digitsToNat_foldl_lt a ha 0
  simpa [digitsToNat] using this

theorem digitsToNat_le_99 (a : List Char) (ha : ∀ c ∈ a, c.isDigit = true)
    (hlen : a.length ≤ 2) : digitsToNat a ≤ 99 := by
  have h := digitsToNat_lt a ha
  have : (10 : Nat) ^ a.length ≤ 10 ^ 2 := Nat.pow_le_pow_right (by omega) hlen
  omega

theorem takeWhile_length_ge (p : Char → Bool) (a b : List Char)
    (ha : ∀ x ∈ a, p x = true) : a.length ≤ ((a ++ b).takeWhile p).length := by
  induction a with
  | nil => simp
  | cons x xs ih =>
    have hx : p x = true := ha x (List.mem_cons_self x xs)
    simp only [List.cons_append, List.takeWhile_cons, hx, List.length_cons]
    have := ih (fun z hz => ha z (List.mem_cons_of_mem x hz))
    simpa using Nat.succ_le_succ this

theorem parseYear24_sound (cs : List Char) (y : Nat) (rest : List Char)
    (h : parseYear24 cs = some (y, rest)) :
    ∃ yy post, cs = yy ++ post ∧ (∀ c ∈ yy, c.isDigit = true)
      ∧ 2 ≤ yy.length ∧ yy.length ≤ 4 := by
  simp only [parseYear24] at h
  split at h
  · rename_i hlen
    rw [Option.some_inj, Prod.mk.injEq] at h
    refine ⟨(cs.takeWhile Char.isDigit).take 4,
      (cs.takeWhile Char.isDigit).drop 4 ++ cs.dropWhile Char.isDigit, ?_, ?_, ?_, ?_⟩
    · rw [← List.append_assoc, List.take_append_drop, List.takeWhile_append_dropWhile]
    · intro c hc
      exact List.mem_takeWhile_imp ((List.take_sublist 4 _).mem hc)
    · rw [List.length_take]; omega
    · rw [List.length_take]; omega
  · exact Option.noConfusion h

theorem parseYear24_isSome (yy post : List Char)
    (hyy : ∀ c ∈ yy, c.isDigit = true) (hlen : 2 ≤ yy.length) :
    (parseYear24 (yy ++ post)).isSome = true := by
  simp only [parseYear24]
  have := takeWhile_length_ge Char.isDigit yy post hyy
  rw [if_pos (by omega)]
  rfl

theorem matchDateAt_sound (cs : List Char) (d m y : Nat) (t : Option (Nat × Nat))
    (h : matchDateAt cs = some (d, m, y, t)) :
    ∃ dd mm yy post, cs = dd ++ '.' :: (mm ++ '.' :: (yy ++ post))
      ∧ (∀ c ∈ dd, c.isDigit = true) ∧ 1 ≤ dd.length ∧ dd.length ≤ 2
      ∧ (∀ c ∈ mm, c.isDigit = true) ∧ 1 ≤ mm.length ∧ mm.length ≤ 2
      ∧ (∀ c ∈ yy, c.isDigit = true) ∧ 2 ≤ yy.length ∧ yy.length ≤ 4 := by
  rw [matchDateAt] at h
  simp only [Option.bind_eq_bind] at h
  cases h1 : parseNum2 0 99 cs with
  | none => rw [h1, Option.none_bind] at h; exact Option.noConfusion h
  | some pr1 =>
  obtain ⟨dv, cs1⟩ := pr1
  rw [h1, Option.some_bind] at h
  cases h2 : expectChar '.' cs1 with
  | none => rw [h2, Option.none_bind] at h; exact Option.noConfusion h
  | some cs2 =>
  rw [h2, Option.some_bind] at h
  cases h3 : parseNum2 0 99 cs2 with
  | none => rw [h3, Option.none_bind] at h; exact Option.noConfusion h
  | some pr3 =>
  obtain ⟨mv, cs3⟩ := pr3
  rw [h3, Option.some_bind] at h
  cases h4 : expectChar '.' cs3 with
  | none => rw [h4, Option.none_bind] at h; exact Option.noConfusion h
  | some cs4 =>
  rw [h4, Option.some_bind] at h
  cases h5 : parseYear24 cs4 with
  | none => rw [h5, Option.none_bind] at h; exact Option.noConfusion h
  | some pr5 =>
  obtain ⟨yv, cs5⟩ := pr5
  rw [h5, Option.some_bind] at h
  obtain ⟨dd, hcs, hdd1, hdd2, hdd3, _, _, _⟩ := parseNum2_sound 0 99 cs dv cs1 h1
  have hcs1 := expectChar_sound '.' cs1 cs2 h2
  obtain ⟨mm, hcs2, hmm1, hmm2, hmm3, _, _, _⟩ := parseNum2_sound 0 99 cs2 mv cs3 h3
  have hcs3 := expectChar_sound '.' cs3 cs4 h4
  obtain ⟨yy, post, hcs4, hyy1, hyy2, hyy3⟩ := parseYear24_sound cs4 yv cs5 h5
  exact ⟨dd, mm, yy, post, by rw [hcs, hcs1, hcs2, hcs3, hcs4],
    hdd1, hdd2, hdd3, hmm1, hmm2, hmm3, hyy1, hyy2, hyy3⟩

theorem matchDateAt_isSome (dd mm yy post : List Char)
    (hdd1 : ∀ c ∈ dd, c.isDigit = true) (hdd2 : 1 ≤ dd.length) (hdd3 : dd.length ≤ 2)
    (hmm1 : ∀ c ∈ mm, c.isDigit = true) (hmm2 : 1 ≤ mm.length) (hmm3 : mm.length ≤ 2)
    (hyy1 : ∀ c ∈ yy, c.isDigit = true) (hyy2 : 2 ≤ yy.length) :
    (matchDateAt (dd ++ '.' :: (mm ++ '.' :: (yy ++ post)))).isSome = true := by
  rw [matchDateAt]
  simp only [Option.bind_eq_bind]
  rw [parseNum2_complete 0 99 dd '.' _ hdd1 (by decide) hdd2 hdd3 (Nat.zero_le _)
      (digitsToNat_le_99 dd hdd1 hdd3), Option.some_bind,
    expectChar_complete, Option.some_bind,
    parseNum2_complete 0 99 mm '.' _ hmm1 (by decide) hmm2 hmm3 (Nat.zero_le _)
      (digitsToNat_le_99 mm hmm1 hmm3), Option.some_bind,
    expectChar_complete, Option.some_bind]
  cases h5 : parseYear24 (yy ++ post) with
  | none =>
    have := parseYear24_isSome yy post hyy1 hyy2
    rw [h5] at this
    simp at this
  | some pr =>
    obtain ⟨yv, cs5⟩ := pr
    rw [Option.some_bind]
    rfl

theorem searchDate_cons_of_tail (c : Char) (rest : List Char)
    (h : searchDate rest ≠ none) : searchDate (c :: rest) ≠ none := by
  simp only [searchDate]
  cases hm : matchDateAt (c :: rest) with
  | some res => simp
  | none => exact h

theorem searchDate_some_of_pattern (cs : List Char) (hp : HasDatePattern cs) :
    searchDate cs ≠ none := by
  obtain ⟨pre, dd, mm, yy, post, hdec, hdd1, hdd2, hdd3, hmm1, hmm2, hmm3,
    hyy1, hyy2, hyy3⟩ := hp
  rw [hdec]
  clear hdec
  induction pre with
  | nil =>
    simp only [List.nil_append]
    cases dd with
    | nil => simp at hdd2
    | cons d0 dtl =>
      have hsome := matchDateAt_isSome (d0 :: dtl) mm yy post hdd1 hdd2 hdd3
        hmm1 hmm2 hmm3 hyy1 hyy2
      rw [List.cons_append] at hsome
      rw [List.cons_append]
      simp only [searchDate]
      cases hm : matchDateAt (d0 :: (dtl ++ '.' :: (mm ++ '.' :: (yy ++ post)))) with
      | none =>
        rw [hm] at hsome
        simp at hsome
      | some res => simp
  | cons p ptl ih =>
    rw [List.cons_append]
    exact searchDate_cons_of_tail p _ ih

theorem pattern_of_searchDate_some (cs : List Char) (hs : searchDate cs ≠ none) :
    HasDatePattern cs := by
  induction cs with
  | nil => simp only [searchDate] at hs; exact absurd rfl hs
  | cons c rest ih =>
    simp only [searchDate] at hs
    cases hm : matchDateAt (c :: rest) with
    | some res =>
      obtain ⟨d, m, y, t⟩ := res
      obtain ⟨dd, mm, yy, post, hdec, h1, h2, h3, h4, h5, h6, h7, h8, h9⟩ :=
        matchDateAt_sound (c :: rest) d m y t hm
      exact ⟨[], dd, mm, yy, post, by rw [List.nil_append, hdec],
        h1, h2, h3, h4, h5, h6, h7, h8, h9⟩
    | none =>
      rw [hm] at hs
      dsimp only at hs
      obtain ⟨pre, dd, mm, yy, post, hdec, h1, h2, h3, h4, h5, h6, h7, h8, h9⟩ := ih hs
      exact ⟨c :: pre, dd, mm, yy, post, by rw [hdec, List.cons_append],
        h1, h2, h3, h4, h5, h6, h7, h8, h9⟩

theorem searchDate_none_iff (cs : List Char) :
    searchDate cs = none ↔ ¬ HasDatePattern cs := by
  constructor
  · intro hn hp
    exact searchDate_some_of_pattern cs hp hn
  · intro hnp
    by_contra hc
    exact hnp (pattern_of_searchDate_some cs hc)

/-- C4: `parse_date_label` is total (the `ValueError` of an invalid date is
caught and modelled by `none`): it returns `none` exactly when the string
has no day.month.year pattern or the leftmost match carries numbers that do
not form a valid calendar date, and otherwise a Berlin-timezone datetime in
which a year below 100 becomes 2000 plus that year and a missing time
group defaults to 00:00. -/
theorem parse_date_label_spec (s : String) :
    (searchDate s.data = none ↔ ¬ HasDatePattern s.data)
      ∧ (parse_date_label s = none ↔
          (¬ HasDatePattern s.data
            ∨ ∃ d m y t, searchDate s.data = some (d, m, y, t)
                ∧ datetimeValid (adjustYear y) m d (optHour t) (optMinute t) 0 = false))
      ∧ (∀ dt, parse_date_label s = some dt →
          dt.tzinfo = some BERLIN_TZ
            ∧ ∃ d m y t, searchDate s.data = some (d, m, y, t)
                ∧ dt.year = adjustYear y ∧ dt.month = m ∧ dt.day = d
                ∧ dt.hour = optHour t ∧ dt.minute = optMinute t ∧ dt.second = 0) := by
  refine ⟨searchDate_none_iff s.data, ?_, ?_⟩
  · rw [parse_date_label]
    cases hs : searchDate s.data with
    | none =>
      simp only [true_iff]
      exact Or.inl ((searchDate_none_iff s.data).mp hs)
    | some res =>
      obtain ⟨d, m, y, t⟩ := res
      dsimp only
      constructor
      · intro hnone
        split at hnone
        · exact Option.noConfusion hnone
        · rename_i hval
          exact Or.inr ⟨d, m, y, t, rfl, by simpa using hval⟩
      · intro hor
        rcases hor with hnp | ⟨d2, m2, y2, t2, heq, hval⟩
        · exfalso
          rw [(searchDate_none_iff s.data).mpr hnp] at hs
          exact Option.noConfusion hs
        · rw [Option.some_inj, Prod.mk.injEq, Prod.mk.injEq, Prod.mk.injEq] at heq
          obtain ⟨rfl, rfl, rfl, rfl⟩ := heq
          rw [if_neg (by simp [hval])]
  · intro dt hdt
    rw [parse_date_label] at hdt
    cases hs : searchDate s.data with
    | none => rw [hs] at hdt; exact Option.noConfusion hdt
    | some res =>
      obtain ⟨d, m, y, t⟩ := res
      rw [hs] at hdt
      dsimp only at hdt
      split at hdt
      · rw [Option.some_inj] at hdt
        rw [← hdt]
        exact ⟨rfl, d, m, y, t, rfl, rfl, rfl, rfl, rfl, rfl, rfl⟩
      · exact Option.noConfusion hdt

theorem parse_date_label_spec_witness :
    (PyDateTime.mk 2025 10 12 18 30 0 (some BERLIN_TZ)).tzinfo = some BERLIN_TZ
      ∧ ∃ d m y t, searchDate ("Termin: 12.10.2025, 18:30 Uhr").data = some (d, m, y, t)
          ∧ (PyDateTime.mk 2025 10 12 18 30 0 (some BERLIN_TZ)).year = adjustYear y
          ∧ (PyDateTime.mk 2025 10 12 18 30 0 (some BERLIN_TZ)).month = m
          ∧ (PyDateTime.mk 2025 10 12 18 30 0 (some BERLIN_TZ)).day = d
          ∧ (PyDateTime.mk 2025 10 12 18 30 0 (some BERLIN_TZ)).hour = optHour t
          ∧ (PyDateTime.mk 2025 10 12 18 30 0 (some BERLIN_TZ)).minute = optMinute t
          ∧ (PyDateTime.mk 2025 10 12 18 30 0 (some BERLIN_TZ)).second = 0 :=
  (parse_date_label_spec "Termin: 12.10.2025, 18:30 Uhr").2.2
    (PyDateTime.mk 2025 10 12 18 30 0 (some BERLIN_TZ)) (by decide)

/-! ### `_parse_result_text` correctness -/

theorem parsePair_some_iff_starts (cs : List Char) :
    (parsePair (cs.dropWhile isPySpace)).isSome = true ↔ StartsWithScore cs := by
  constructor
  · intro h
    simp only [parsePair] at h
    split at h
    · simp at h
    · rename_i ha
      cases hexp : expectChar ':' ((cs.dropWhile isPySpace).dropWhile Char.isDigit) with
      | none => rw [hexp] at h; simp at h
      | some r2' =>
        rw [hexp] at h
        dsimp only at h
        split at h
        · simp at h
        · rename_i hb
          have hr1 := expectChar_sound ':'
            ((cs.dropWhile isPySpace).dropWhile Char.isDigit) r2' hexp
          refine ⟨(cs.dropWhile isPySpace).takeWhile Char.isDigit,
            r2'.takeWhile Char.isDigit,
            r2'.dropWhile Char.isDigit, ?_, ?_, ?_, ?_, ?_⟩
          · conv_lhs => rw [← List.takeWhile_append_dropWhile Char.isDigit
                (cs.dropWhile isPySpace), hr1,
              ← List.takeWhile_append_dropWhile Char.isDigit r2']
          · simpa [List.isEmpty_iff] using ha
          · simpa [List.isEmpty_iff] using hb
          · intro c hc; exact List.mem_takeWhile_imp hc
          · intro c hc; exact List.mem_takeWhile_imp hc
  · rintro ⟨a, b, rest, hdec, hane, hbne, hadig, hbdig⟩
    simp only [parsePair]
    have hcolon : Char.isDigit ':' = false := by decide
    have hspan := span_exact Char.isDigit a ':' (b ++ rest) hadig hcolon
    rw [hdec, hspan.1, hspan.2]
    rw [if_neg (by simpa [List.isEmpty_iff] using hane)]
    rw [expectChar_complete]
    dsimp only
    have hblen : 1 ≤ ((b ++ rest).takeWhile Char.isDigit).length := by
      have := takeWhile_length_ge Char.isDigit b rest hbdig
      have hb1 : 1 ≤ b.length := by
        cases b with
        | nil => exact absurd rfl hbne
        | cons x xs => simp
      omega
    rw [if_neg (by
      intro he
      rw [List.isEmpty_iff] at he
      rw [he] at hblen
      simp at hblen)]
    rfl

/-- C5: `_parse_result_text` returns `None` exactly on `None`, on strings
that strip to empty, and on the dash placeholders; otherwise it returns a
`MatchResult` whose fields follow `RESULT_PATTERN` when the cleaned text
starts with a `d:d` score (optional `/ d:d` total points, parenthesized
set labels split on commas and whitespace), and otherwise consist of the
whole cleaned text as score with no total points and no sets. -/
theorem parse_result_text_spec :
    _parse_result_text none = none
      ∧ (∀ s : String, (_parse_result_text (some s) = none ↔
          pyStrip s.data = [] ∨ pyStrip s.data = "-".data ∨ pyStrip s.data = "–".data))
      ∧ (∀ s mr, _parse_result_text (some s) = some mr →
          ((¬ StartsWithScore (pyStrip s.data)) →
              mr = ⟨String.mk (pyStrip s.data), none, []⟩)
          ∧ (StartsWithScore (pyStrip s.data) →
              ∃ st rest1,
                parsePair ((pyStrip s.data).dropWhile isPySpace) = some (st, rest1)
                  ∧ mr.score = String.mk st
                  ∧ mr.total_points = ((parsePointsOpt rest1).1).map String.mk
                  ∧ mr.sets = (match (parseSetsOpt (parsePointsOpt rest1).2).1 with
                      | none => [] | some content => setsSplit content))) := by
  refine ⟨rfl, ?_, ?_⟩
  · intro s
    simp only [_parse_result_text]
    by_cases he : (pyStrip s.data).isEmpty = true
    · rw [if_pos he]
      simp only [List.isEmpty_iff] at he
      simp [he]
    · rw [if_neg he]
      simp only [List.isEmpty_iff] at he
      by_cases hd1 : pyStrip s.data = "-".data
      · rw [if_pos hd1]; simp [hd1]
      · rw [if_neg hd1]
        by_cases hd2 : pyStrip s.data = "–".data
        · rw [if_pos hd2]; simp [hd2]
        · rw [if_neg hd2]
          cases hp : parsePair ((pyStrip s.data).dropWhile isPySpace) with
          | none => simp [he, hd1, hd2]
          | some pr =>
            obtain ⟨st, rest1⟩ := pr
            simp [he, hd1, hd2]
  · intro s mr hmr
    simp only [_parse_result_text] at hmr
    by_cases he : (pyStrip s.data).isEmpty = true
    · rw [if_pos he] at hmr; exact Option.noConfusion hmr
    · rw [if_neg he] at hmr
      by_cases hd1 : pyStrip s.data = "-".data
      · rw [if_pos hd1] at hmr; exact Option.noConfusion hmr
      · rw [if_neg hd1] at hmr
        by_cases hd2 : pyStrip s.data = "–".data
        · rw [if_pos hd2] at hmr; exact Option.noConfusion hmr
        · rw [if_neg hd2] at hmr
          cases hp : parsePair ((pyStrip s.data).dropWhile isPySpace) with
          | none =>
            rw [hp] at hmr
            dsimp only at hmr
            rw [Option.some_inj] at hmr
            constructor
            · intro _; exact hmr.symm
            · intro hstart
              have := (parsePair_some_iff_starts (pyStrip s.data)).mpr hstart
              rw [hp] at this
              simp at this
          | some pr =>
            obtain ⟨st, rest1⟩ := pr
            rw [hp] at hmr
            dsimp only at hmr
            rw [Option.some_inj] at hmr
            constructor
            · intro hnostart
              exfalso
              apply hnostart
              apply (parsePair_some_iff_starts (pyStrip s.data)).mp
              rw [hp]
              rfl
            · intro _
              exact ⟨st, rest1, rfl, by rw [← hmr], by rw [← hmr], by rw [← hmr]⟩

set_option maxHeartbeats 2000000 in
theorem parse_result_text_spec_witness :
    ∃ st rest1,
      parsePair ((pyStrip ("3:1 (25:20, 25:18)" : String).data).dropWhile isPySpace)
          = some (st, rest1)
        ∧ (MatchResult.mk "3:1" none ["25:20", "25:18"]).score = String.mk st
        ∧ (MatchResult.mk "3:1" none ["25:20", "25:18"]).total_points
            = ((parsePointsOpt rest1).1).map String.mk
        ∧ (MatchResult.mk "3:1" none ["25:20", "25:18"]).sets
            = (match (parseSetsOpt (parsePointsOpt rest1).2).1 with
                | none => [] | some content => setsSplit content) :=
  (parse_result_text_spec.2.2 "3:1 (25:20, 25:18)"
      (MatchResult.mk "3:1" none ["25:20", "25:18"]) (by decide)).2
    ⟨['3'], ['1'], (" (25:20, 25:18)" : String).data, by decide, by decide, by decide,
      by decide, by decide⟩

/-! ### Lineup serialization facts -/

theorem zip_map_fst (a b : List String) :
    (a.zip b).map Prod.fst = a.take b.length := by
  induction a generalizing b with
  | nil => simp
  | cons x xs ih =>
    cases b with
    | nil => simp
    | cons y ys => simp [List.zip_cons_cons, ih]

theorem zip_map_snd (a b : List String) :
    (a.zip b).map Prod.snd = b.take a.length := by
  induction a generalizing b with
  | nil => simp
  | cons x xs ih =>
    cases b with
    | nil => simp
    | cons y ys => simp [List.zip_cons_cons, ih]

theorem map_const_none (l : List String) :
    l.map (fun sl => (⟨sl, none, none, none⟩ : LineupEntry).number)
      = List.replicate l.length none := by
  induction l with
  | nil => rfl
  | cons x xs ih => simp [ih, List.replicate_succ]

/-- C1: every team's serialized lineup list has exactly six entries whose
slots are the Roman numerals I..VI in order; at most the first six extracted
positions are used, and missing positions are padded with entries whose
number, full name, and short name are all `None`.  The characterization
holds for every name resolver, and every entry list that
`serializeSetLineups` emits arises as such a `buildEntries` value. -/
theorem serialize_dataset_lineups (sets : List (Nat × List (String × List String)))
    (positions : List String) (resolve : String → Option String) :
    (buildEntries positions resolve).length = 6
      ∧ (buildEntries positions resolve).map LineupEntry.slot = POSITION_SLOTS
      ∧ buildEntries positions resolve
          = ((POSITION_SLOTS.zip (positions.take 6)).map
              (fun pr => ⟨pr.1, some pr.2, resolve pr.2, _short_display_name (resolve pr.2)⟩))
            ++ ((POSITION_SLOTS.drop (min 6 positions.length)).map
                (fun sl => ⟨sl, none, none, none⟩))
      ∧ (buildEntries positions resolve).map LineupEntry.number
          = (positions.take 6).map some
            ++ List.replicate (6 - min 6 positions.length) none
      ∧ (∀ e ∈ (buildEntries positions resolve).drop (min 6 positions.length),
          e.number = none ∧ e.full_name = none ∧ e.short_name = none)
      ∧ (∀ st ∈ serializeSetLineups sets resolve, ∀ tm ∈ st.2,
          ∃ ps, tm.2 = buildEntries ps resolve) := by
  have hPlen : (positions.take 6).length = min 6 positions.length := by
    simp [List.length_take]
  have hPle : (positions.take 6).length ≤ 6 := by
    rw [hPlen]; omega
  have hzlen : ((POSITION_SLOTS.zip (positions.take 6)).map
      (fun pr => (⟨pr.1, some pr.2, resolve pr.2,
        _short_display_name (resolve pr.2)⟩ : LineupEntry))).length
      = min 6 positions.length := by
    rw [List.length_map, List.length_zip]
    show min POSITION_SLOTS.length (positions.take 6).length = _
    rw [hPlen]
    simp [POSITION_SLOTS]
  have hbe : buildEntries positions resolve
      = ((POSITION_SLOTS.zip (positions.take 6)).map
          (fun pr => ⟨pr.1, some pr.2, resolve pr.2, _short_display_name (resolve pr.2)⟩))
        ++ ((POSITION_SLOTS.drop (min 6 positions.length)).map
            (fun sl => ⟨sl, none, none, none⟩)) := by
    rw [buildEntries]
    rw [hzlen]
  refine ⟨?_, ?_, hbe, ?_, ?_, ?_⟩
  · rw [hbe, List.length_append, hzlen, List.length_map, List.length_drop]
    simp [POSITION_SLOTS]
  · rw [hbe, List.map_append, List.map_map, List.map_map]
    have h1 : ((POSITION_SLOTS.zip (positions.take 6)).map
        (LineupEntry.slot ∘ fun pr => ⟨pr.1, some pr.2, resolve pr.2,
          _short_display_name (resolve pr.2)⟩))
        = POSITION_SLOTS.take (min 6 positions.length) := by
      show (POSITION_SLOTS.zip (positions.take 6)).map Prod.fst = _
      rw [zip_map_fst, hPlen]
    have h2 : (POSITION_SLOTS.drop (min 6 positions.length)).map
        (LineupEntry.slot ∘ fun sl => ⟨sl, none, none, none⟩)
        = POSITION_SLOTS.drop (min 6 positions.length) := by
      show (POSITION_SLOTS.drop (min 6 positions.length)).map id = _
      exact List.map_id _
    rw [h1, h2, List.take_append_drop]
  · rw [hbe, List.map_append, List.map_map, List.map_map]
    have h1 : ((POSITION_SLOTS.zip (positions.take 6)).map
        (LineupEntry.number ∘ fun pr => ⟨pr.1, some pr.2, resolve pr.2,
          _short_display_name (resolve pr.2)⟩))
        = (positions.take 6).map some := by
      show (POSITION_SLOTS.zip (positions.take 6)).map (some ∘ Prod.snd) = _
      rw [← List.map_map, zip_map_snd]
      congr 1
      exact List.take_of_length_le (by simp [POSITION_SLOTS])
    have h2 : (POSITION_SLOTS.drop (min 6 positions.length)).map
        (LineupEntry.number ∘ fun sl => ⟨sl, none, none, none⟩)
        = List.replicate (6 - min 6 positions.length) none := by
      rw [show (LineupEntry.number ∘ fun sl =>
          (⟨sl, none, none, none⟩ : LineupEntry)) = fun sl =>
            (⟨sl, none, none, none⟩ : LineupEntry).number from rfl]
      rw [map_const_none, List.length_drop]
      rfl
    rw [h1, h2]
  · intro e he
    rw [hbe] at he
    rw [show min 6 positions.length
        = ((POSITION_SLOTS.zip (positions.take 6)).map
            (fun pr => (⟨pr.1, some pr.2, resolve pr.2,
              _short_display_name (resolve pr.2)⟩ : LineupEntry))).length from hzlen.symm,
      List.drop_left] at he
    obtain ⟨sl, _, rfl⟩ := List.mem_map.mp he
    exact ⟨rfl, rfl, rfl⟩
  · intro st hst tm htm
    simp only [serializeSetLineups, List.mem_map] at hst
    obtain ⟨st0, _, rfl⟩ := hst
    simp only [List.mem_map] at htm
    obtain ⟨tm0, _, rfl⟩ := htm
    exact ⟨tm0.2, rfl⟩

theorem serialize_dataset_lineups_witness :
    ∀ e ∈ (buildEntries ["10", "11"] (fun n => some n)).drop
        (min 6 (["10", "11"] : List String).length),
      e.number = none ∧ e.full_name = none ∧ e.short_name = none :=
  (serialize_dataset_lineups [(1, [("A", ["10", "11"])])] ["10", "11"]
    (fun n => some n)).2.2.2.2.1

/-! ### `parse_schedule` correctness -/

theorem filterMap_ite {α β : Type} (p : α → Prop) [DecidablePred p] (f : α → β) :
    ∀ l : List α, (l.filterMap (fun x => if p x then some (f x) else none))
      = (l.filter (fun x => decide (p x))).map f := by
  intro l
  induction l with
  | nil => rfl
  | cons x xs ih =>
    by_cases hp : p x
    · simp [List.filterMap_cons, List.filter_cons, hp, ih]
    · simp [List.filterMap_cons, List.filter_cons, hp, ih]

theorem parseScheduleRecord_no_error (r : Record) (hsafe : recordSafe r = true) :
    parseScheduleRecord r ≠ .error () := by
  simp only [recordSafe, Bool.or_eq_true, Bool.and_eq_true, decide_eq_true_eq,
    Option.isNone_iff_eq_none] at hsafe
  simp only [parseScheduleRecord]
  split
  · exact fun h => Except.noConfusion h
  · rename_i hmn
    cases hd : recGet r "Datum" with
    | none => exact fun h => Except.noConfusion h
    | some dv =>
      cases ht : recGet r "Uhrzeit" with
      | none => exact fun h => Except.noConfusion h
      | some tv =>
        rcases hsafe with ((h | h) | h) | ⟨hds, hts⟩
        · exact absurd h hmn
        · rw [h] at hd; exact Option.noConfusion hd
        · rw [h] at ht; exact Option.noConfusion ht
        · rw [hd] at hds
          rw [ht] at hts
          cases dv with
          | none => simp [Option.join] at hds
          | some ds0 =>
            cases tv with
            | none => simp [Option.join] at hts
            | some ts0 =>
              dsimp only
              cases parse_kickoff ds0 ts0 with
              | none => exact fun h => Except.noConfusion h
              | some kickoff => exact fun h => Except.noConfusion h

theorem parseScheduleRecord_inv (r : Record) (row : ScheduleRow)
    (h : parseScheduleRecord r = .ok (some row)) :
    pyStripStr (getStr r "#") ≠ ""
      ∧ (∃ ds ts, (recGet r "Datum") = some (some ds) ∧ (recGet r "Uhrzeit") = some (some ts)
          ∧ parse_kickoff ds ts = some row.kickoff)
      ∧ row.set_scores = rowSetScores r := by
  simp only [parseScheduleRecord] at h
  split at h
  · simp at h
  · rename_i hmn
    cases hd : recGet r "Datum" with
    | none => rw [hd] at h; simp at h
    | some dv =>
      rw [hd] at h
      cases ht : recGet r "Uhrzeit" with
      | none => rw [ht] at h; simp at h
      | some tv =>
        rw [ht] at h
        cases dv with
        | none =>
          cases tv <;> (dsimp only at h; exact Except.noConfusion h)
        | some ds0 =>
          cases tv with
          | none => dsimp only at h; exact Except.noConfusion h
          | some ts0 =>
            dsimp only at h
            cases hk : parse_kickoff ds0 ts0 with
            | none => rw [hk] at h; simp at h
            | some kickoff =>
              rw [hk] at h
              simp only [Except.ok.injEq, Option.some_inj] at h
              refine ⟨hmn, ⟨ds0, ts0, rfl, rfl, ?_⟩, ?_⟩
              · rw [hk, ← h]
              · rw [← h]

theorem parseScheduleRecord_of_qualifies (r : Record)
    (hq : recordQualifies r = true) :
    ∃ row, parseScheduleRecord r = .ok (some row) := by
  simp only [recordQualifies, Bool.and_eq_true, decide_eq_true_eq] at hq
  obtain ⟨hmn, hrest⟩ := hq
  simp only [parseScheduleRecord]
  rw [if_neg hmn]
  cases hd : recGet r "Datum" with
  | none => rw [hd] at hrest; simp [Option.join] at hrest
  | some dv =>
    rw [hd] at hrest
    cases ht : recGet r "Uhrzeit" with
    | none => rw [ht] at hrest; simp [Option.join] at hrest
    | some tv =>
      rw [ht] at hrest
      cases dv with
      | none => simp [Option.join] at hrest
      | some ds0 =>
        cases tv with
        | none => simp [Option.join] at hrest
        | some ts0 =>
          have hrest2 : (parse_kickoff ds0 ts0).isSome = true := by
            simpa [Option.join] using hrest
          dsimp only
          cases hk : parse_kickoff ds0 ts0 with
          | none => rw [hk] at hrest2; simp at hrest2
          | some kickoff => exact ⟨_, rfl⟩

theorem qualifies_of_parseScheduleRecord (r : Record) (row : ScheduleRow)
    (h : parseScheduleRecord r = .ok (some row)) : recordQualifies r = true := by
  obtain ⟨hmn, ⟨ds, ts, hds, hts, hk⟩, _⟩ := parseScheduleRecord_inv r row h
  simp only [recordQualifies, Bool.and_eq_true, decide_eq_true_eq]
  refine ⟨hmn, ?_⟩
  rw [hds, hts]
  simp [Option.join, hk]

set_option maxHeartbeats 1000000 in
/-- C6 (amended): on records whose date/time values are genuine strings
(no short rows), `parse_schedule` raises nothing and produces exactly one
`ScheduleRow` per record with a non-empty `#` field and a
`parse_kickoff`-parseable date/time pair, skipping every other record; each
row's `set_scores` lists `"home:away"` for exactly the sets whose two point
fields are non-empty, in set order, hence at most five entries. -/
theorem parse_schedule_spec (records : List Record)
    (hsafe : ∀ r ∈ records, recordSafe r = true) :
    ∃ rows, parse_schedule records = some rows
      ∧ rows = records.filterMap (fun r =>
          match parseScheduleRecord r with
          | .ok (some row) => some row
          | _ => none)
      ∧ (∀ r ∈ records, (∃ row, parseScheduleRecord r = .ok (some row))
          ↔ recordQualifies r = true)
      ∧ (∀ r row, parseScheduleRecord r = .ok (some row) →
          row.set_scores
              = (setScoreKeys.filter (fun ks =>
                  decide (pyStripStr (getStr r ks.1) ≠ "" ∧ pyStripStr (getStr r ks.2) ≠ ""))).map
                (fun ks => pyStripStr (getStr r ks.1) ++ ":" ++ pyStripStr (getStr r ks.2))
            ∧ row.set_scores.length ≤ 5) := by
  refine ⟨records.filterMap (fun r =>
      match parseScheduleRecord r with
      | .ok (some row) => some row
      | _ => none), ?_, rfl, ?_, ?_⟩
  · induction records with
    | nil => rfl
    | cons r rest ih =>
      have hr := hsafe r (List.mem_cons_self r rest)
      have hrest := ih (fun x hx => hsafe x (List.mem_cons_of_mem r hx))
      rw [parse_schedule, List.filterMap_cons]
      cases hpr : parseScheduleRecord r with
      | error e =>
        cases e
        exact absurd hpr (parseScheduleRecord_no_error r hr)
      | ok o =>
        cases o with
        | none => exact hrest
        | some row =>
          dsimp only
          rw [hrest]
          rfl
  · intro r _
    constructor
    · rintro ⟨row, hrow⟩
      exact qualifies_of_parseScheduleRecord r row hrow
    · exact parseScheduleRecord_of_qualifies r
  · intro r row h
    have hset := (parseScheduleRecord_inv r row h).2.2
    have hform : rowSetScores r
        = (setScoreKeys.filter (fun ks =>
            decide (pyStripStr (getStr r ks.1) ≠ "" ∧ pyStripStr (getStr r ks.2) ≠ ""))).map
          (fun ks => pyStripStr (getStr r ks.1) ++ ":" ++ pyStripStr (getStr r ks.2)) := by
      exact filterMap_ite
        (fun ks => pyStripStr (getStr r ks.1) ≠ "" ∧ pyStripStr (getStr r ks.2) ≠ "")
        (fun ks => pyStripStr (getStr r ks.1) ++ ":" ++ pyStripStr (getStr r ks.2))
        setScoreKeys
    constructor
    · rw [hset, hform]
    · rw [hset, hform, List.length_map]
      have hle := List.length_filter_le (fun ks =>
        decide (pyStripStr (getStr r ks.1) ≠ "" ∧ pyStripStr (getStr r ks.2) ≠ "")) setScoreKeys
      have h5 : setScoreKeys.length = 5 := rfl
      omega

/-- C6 counterexample: the record of the CSV text `"#;Datum;Uhrzeit\n5"`
(a data row shorter than its header, so `DictReader` fills `None`): the
record has a non-empty `#` field, yet `parse_schedule` raises
`AttributeError` (modelled by `none`) instead of skipping it. -/
theorem parse_schedule_counterexample :
    parse_schedule [[("#", some "5"), ("Datum", none), ("Uhrzeit", none)]] = none := by
  rfl

theorem parse_schedule_spec_witness :
    ∃ rows,
      parse_schedule [[("#", some "1"), ("Datum", some "12.10.2025"),
          ("Uhrzeit", some "18:30:00")]] = some rows
        ∧ rows = [[("#", some "1"), ("Datum", some "12.10.2025"),
            ("Uhrzeit", some "18:30:00")]].filterMap (fun r =>
              match parseScheduleRecord r with
              | .ok (some row) => some row
              | _ => none)
        ∧ (∀ r ∈ [[("#", some "1"), ("Datum", some "12.10.2025"),
            ("Uhrzeit", some "18:30:00")]],
            (∃ row, parseScheduleRecord r = .ok (some row)) ↔ recordQualifies r = true)
        ∧ (∀ r row, parseScheduleRecord r = .ok (some row) →
            row.set_scores
                = (setScoreKeys.filter (fun ks =>
                    decide (pyStripStr (getStr r ks.1) ≠ ""
                      ∧ pyStripStr (getStr r ks.2) ≠ ""))).map
                  (fun ks => pyStripStr (getStr r ks.1) ++ ":" ++ pyStripStr (getStr r ks.2))
              ∧ row.set_scores.length ≤ 5) :=
  parse_schedule_spec [[("#", some "1"), ("Datum", some "12.10.2025"),
    ("Uhrzeit", some "18:30:00")]] (by decide)

/-! ### `_extract_positions_from_table` correctness -/

theorem detectCodesGo_ne (cs : List Char) :
    ∀ prev found a b, detectCodesGo prev found cs = some (a, b) → a ≠ b := by
  induction cs with
  | nil => intro prev found a b h; exact Option.noConfusion h
  | cons c rest ih =>
    intro prev found a b h
    simp only [detectCodesGo] at h
    split at h
    · cases found with
      | none => exact ih _ _ a b h
      | some c0 =>
        dsimp only at h
        split at h
        · exact ih _ _ a b h
        · rename_i hne
          rw [Option.some_inj, Prod.mk.injEq] at h
          obtain ⟨ha, hb⟩ := h
          subst ha; subst hb
          exact fun he => hne he.symm
    · exact ih _ _ a b h

theorem detect_codes_ne (row : List String) (cds : Char × Char)
    (h : _detect_codes_from_row row = some cds) : cds.1 ≠ cds.2 := by
  obtain ⟨a, b⟩ := cds
  have h' : detectCodesGo false none
      (List.intercalate [' '] (row.map String.data)) = some (a, b) := h
  exact detectCodesGo_ne _ false none a b h'

theorem headerCodes_ne (rows : List (List String)) (i : Nat) (row : List String)
    (cds : Char × Char) (h : headerCodes rows i row = some cds) :
    cds.1 ≠ cds.2 := by
  simp only [headerCodes] at h
  cases h1 : _detect_codes_from_row row with
  | some c1 =>
    rw [h1] at h
    rw [Option.some_inj] at h
    exact h ▸ detect_codes_ne row c1 h1
  | none =>
    rw [h1] at h
    dsimp only at h
    split at h
    · cases h2 : _detect_codes_from_row (rows.getD (i - 1) []) with
      | some c2 =>
        rw [h2] at h
        rw [Option.some_inj] at h
        exact h ▸ detect_codes_ne _ c2 h2
      | none =>
        rw [h2] at h
        dsimp only at h
        split at h
        · exact detect_codes_ne _ cds h
        · exact Option.noConfusion h
    · exact Option.noConfusion h

theorem findHeaderScan_ne (rows : List (List String)) (idxs : List Nat) :
    ∀ hi lc rc cds li ri,
      findHeaderScan rows idxs = some (hi, lc, rc, cds, li, ri) →
      cds.1 ≠ cds.2 := by
  induction idxs with
  | nil => intro hi lc rc cds li ri h; exact Option.noConfusion h
  | cons i more ih =>
    intro hi lc rc cds li ri h
    simp only [findHeaderScan] at h
    split at h
    · cases hc : headerCodes rows i (rows.getD i []) with
      | none =>
        rw [hc] at h
        exact ih hi lc rc cds li ri h
      | some c =>
        rw [hc] at h
        dsimp only at h
        rw [Option.some_inj] at h
        have hcds : c = cds := congrArg (fun t => t.2.2.2.1) h
        exact hcds ▸ headerCodes_ne rows i _ c hc
    · exact ih hi lc rc cds li ri h

theorem scanLineupRows_spec (lc rc : List Nat) (rs : List (List String)) :
    ∀ row lv rv, scanLineupRows lc rc rs = some (row, lv, rv) →
      lv.length = 6 ∧ rv.length = 6 := by
  induction rs with
  | nil => intro row lv rv h; exact Option.noConfusion h
  | cons r more ih =>
    intro row lv rv h
    simp only [scanLineupRows] at h
    split at h
    · rename_i hcond
      rw [Option.some_inj] at h
      have hlv : _collect_positions r lc = lv := congrArg (fun t => t.2.1) h
      have hrv : _collect_positions r rc = rv := congrArg (fun t => t.2.2) h
      exact ⟨hlv ▸ hcond.1, hrv ▸ hcond.2⟩
    · exact ih row lv rv h

theorem string_mk_one_ne {a b : Char} (h : a ≠ b) :
    String.mk [a] ≠ String.mk [b] := by
  intro he
  have hd : ([a] : List Char) = [b] := congrArg String.data he
  exact h (List.cons.inj hd).1

theorem extractFallbackCore_good (row0 fr : List String) :
    ExtractResultOk (extractFallbackCore row0 fr) := by
  simp only [extractFallbackCore]
  split
  · split
    · rename_i hlen
      cases htm : _detect_codes_from_row row0 with
      | none =>
        exact Or.inr ⟨"left", "right", _, _, rfl, by decide, hlen.1, hlen.2⟩
      | some cds =>
        exact Or.inr ⟨_, _, _, _, rfl,
          string_mk_one_ne (detect_codes_ne row0 cds htm), hlen.1, hlen.2⟩
    · exact Or.inl ⟨rfl, rfl⟩
  · exact Or.inl ⟨rfl, rfl⟩

theorem extractFallback_good (rows : List (List String))
    (res : List (String × List String) × List (String × String))
    (h : extractFallback rows = some res) : ExtractResultOk res := by
  cases rows with
  | nil => exact Option.noConfusion h
  | cons row0 rest =>
    simp only [extractFallback, Option.some_inj] at h
    exact h ▸ extractFallbackCore_good row0 _

theorem extractFallback_isSome (rows : List (List String)) (h : rows ≠ []) :
    ∃ res, extractFallback rows = some res := by
  cases rows with
  | nil => exact absurd rfl h
  | cons row0 rest => exact ⟨_, rfl⟩

/-- C2 (amended): on every NON-EMPTY table, `_extract_positions_from_table`
returns without raising, and the result is either the empty mapping with an
empty scores mapping, or a mapping of exactly two distinct team keys, each
to a list of exactly six extracted position strings — never one team with
six positions and the other with fewer.  (On the empty table the fallback
path evaluates `rows[0]` and raises an uncaught `IndexError`, modelled as
`none`; see the counterexample.) -/
theorem extract_positions_spec (table : List (List (Option String)))
    (h : table ≠ []) :
    ∃ res, _extract_positions_from_table table = some res
      ∧ ExtractResultOk res := by
  have hrows : table.map (fun row => row.map _clean_cell) ≠ [] := by
    intro he
    exact h (by simpa using he)
  cases hf : _find_header_indices (table.map (fun row => row.map _clean_cell)) with
  | none =>
    obtain ⟨res, hres⟩ := extractFallback_isSome _ hrows
    refine ⟨res, ?_, extractFallback_good _ res hres⟩
    simp only [_extract_positions_from_table]
    rw [hf]
    exact hres
  | some info =>
    obtain ⟨hi, lc, rc, cds, li, ri⟩ := info
    cases hs : scanLineupRows lc rc
        ((table.map (fun row => row.map _clean_cell)).drop (hi + 1)) with
    | none =>
      obtain ⟨res, hres⟩ := extractFallback_isSome _ hrows
      refine ⟨res, ?_, extractFallback_good _ res hres⟩
      simp only [_extract_positions_from_table]
      rw [hf]
      dsimp only
      rw [hs]
      exact hres
    | some triple =>
      obtain ⟨row, lv, rv⟩ := triple
      have hne : cds.1 ≠ cds.2 := findHeaderScan_ne _ _ hi lc rc cds li ri hf
      have hlen := scanLineupRows_spec lc rc _ row lv rv hs
      refine ⟨([(String.mk [cds.1], lv), (String.mk [cds.2], rv)],
        buildScores cds row li ri), ?_, ?_⟩
      · simp only [_extract_positions_from_table]
        rw [hf]
        dsimp only
        rw [hs]
      · exact Or.inr ⟨_, _, _, _, rfl, string_mk_one_ne hne, hlen.1, hlen.2⟩

/-- C2 counterexample: on the empty table the fallback path evaluates
`rows[0]`, raising an uncaught `IndexError` (modelled as `none`), so the
function does not return a result for every table. -/
theorem extract_positions_counterexample :
    _extract_positions_from_table [] = none := rfl

theorem extract_positions_spec_witness :
    (([[some "x"]] : List (List (Option String))) ≠ [])
      ∧ ∃ res, _extract_positions_from_table [[some "x"]] = some res
          ∧ ExtractResultOk res :=
  ⟨by decide, extract_positions_spec [[some "x"]] (by decide)⟩

/-! ### `collect_mvp_rankings` correctness -/

set_option maxHeartbeats 1000000 in
/-- C7: given a non-empty team list with at least one resolvable filter,
`collect_mvp_rankings` returns one entry per indicator label of
`MVP_INDICATORS` (11 distinct labels, in order), each carrying the fixed
13-column header list; a failed indicator selection yields an empty row
list, a successful one concatenates per-team chunks, and every chunk has
exactly `limit` rows: the fetched rows truncated to `limit`, padded with
placeholder rows whose column at index 6 is the team's filter label. -/
theorem collect_mvp_rankings_spec (selectOk : String → Bool)
    (fetch : String → String → Option (List (List String)))
    (team_names : List String) (limit : Nat)
    (hne : team_names ≠ []) (hfil : mvpFilters team_names ≠ []) :
    MvpSpecStatement selectOk fetch team_names limit := by
  have hcol : collect_mvp_rankings selectOk fetch team_names limit
      = MVP_INDICATORS.map (mvpEntry selectOk fetch (mvpFilters team_names) limit) := by
    simp only [collect_mvp_rankings, if_neg hne, if_neg hfil]
  refine ⟨?_, by decide, rfl, ?_, ?_, ?_, ?_⟩
  · rw [hcol, List.map_map]
    refine List.map_congr_left ?_
    intro p hp
    simp only [Function.comp, mvpEntry]
    split <;> rfl
  · intro e he
    rw [hcol] at he
    obtain ⟨p, hp, hpe⟩ := List.mem_map.mp he
    subst hpe
    refine ⟨?_, rfl⟩
    simp only [mvpEntry]
    split <;> rfl
  · intro p hp hsel
    rw [hcol]
    have he : mvpEntry selectOk fetch (mvpFilters team_names) limit p
        = (p.2, MVP_HEADERS, ([] : List (List String))) := by
      simp [mvpEntry, hsel]
    exact he ▸ List.mem_map_of_mem _ hp
  · intro p hp hsel
    rw [hcol]
    have he : mvpEntry selectOk fetch (mvpFilters team_names) limit p
        = (p.2, MVP_HEADERS,
            (mvpFilters team_names).flatMap (mvpChunk fetch limit p.1)) := by
      simp [mvpEntry, hsel]
    exact he ▸ List.mem_map_of_mem _ hp
  · intro indicator_id nf
    constructor
    · simp only [mvpChunk, _ensure_row_limit, List.length_append, List.length_take,
        List.length_replicate]
      omega
    · refine ⟨List.replicate
        (limit - ((mvpFetchRows fetch indicator_id nf.2).take limit).length)
        (_build_placeholder_row nf.2), rfl, ?_⟩
      intro r hr
      rw [List.eq_of_mem_replicate hr]
      exact ⟨rfl, rfl⟩

set_option maxHeartbeats 1000000 in
theorem collect_mvp_rankings_spec_witness :
    ((["USC Münster"] : List String) ≠ [] ∧ mvpFilters ["USC Münster"] ≠ [])
      ∧ MvpSpecStatement (fun _ => true) (fun _ _ => some []) ["USC Münster"] 5 :=
  ⟨⟨by decide, by decide⟩,
    collect_mvp_rankings_spec (fun _ => true) (fun _ _ => some [])
      ["USC Münster"] 5 (by decide) (by decide)⟩

/-! ### `_deduplicate_matches` correctness -/

theorem updateFirst_map_sig {α : Type} (m : Match α) (acc : List (Match α)) :
    (updateFirst m acc).map sig = acc.map sig := by
  induction acc with
  | nil => rfl
  | cons x xs ih =>
    simp only [updateFirst]
    split
    · simp only [List.map_cons]
      congr 1
      split <;> rfl
    · simp only [List.map_cons, ih]

theorem updateFirst_map_kickoff {α : Type} (m : Match α) (acc : List (Match α)) :
    (updateFirst m acc).map (fun x => x.kickoff)
      = acc.map (fun x => x.kickoff) := by
  induction acc with
  | nil => rfl
  | cons x xs ih =>
    simp only [updateFirst]
    split
    · simp only [List.map_cons]
      congr 1
      split <;> rfl
    · simp only [List.map_cons, ih]

theorem updateFirst_mem {α : Type} (m : Match α) (acc : List (Match α)) :
    ∀ y ∈ updateFirst m acc,
      y ∈ acc ∨ ∃ x ∈ acc, sig x = sig m
        ∧ compTruthy x.competition = false ∧ compTruthy m.competition = true
        ∧ y = { x with competition := m.competition } := by
  induction acc with
  | nil => intro y hy; exact absurd hy (List.not_mem_nil y)
  | cons x xs ih =>
    intro y hy
    simp only [updateFirst] at hy
    split at hy
    · rename_i hsig
      rcases List.mem_cons.mp hy with hy0 | hyxs
      · by_cases hb : (!compTruthy x.competition && compTruthy m.competition) = true
        · rw [if_pos hb] at hy0
          simp only [Bool.and_eq_true, Bool.not_eq_true'] at hb
          exact Or.inr ⟨x, List.mem_cons_self x xs, hsig, hb.1, hb.2, hy0⟩
        · rw [if_neg hb] at hy0
          exact Or.inl (hy0 ▸ List.mem_cons_self x xs)
      · exact Or.inl (List.mem_cons_of_mem x hyxs)
    · rcases List.mem_cons.mp hy with hy0 | hyxs
      · exact Or.inl (hy0 ▸ List.mem_cons_self x xs)
      · rcases ih y hyxs with h1 | ⟨x', hx', hrest⟩
        · exact Or.inl (List.mem_cons_of_mem x h1)
        · exact Or.inr ⟨x', List.mem_cons_of_mem x hx', hrest⟩

theorem updateFirst_origin {α : Type} (L : List (Match α)) (m : Match α)
    (hm : m ∈ L) (acc : List (Match α))
    (hall : ∀ x ∈ acc, DedupOrigin L x) :
    ∀ y ∈ updateFirst m acc, DedupOrigin L y := by
  intro y hy
  rcases updateFirst_mem m acc y hy with hmem | ⟨x, hx, hsig, hxf, hmt, hyeq⟩
  · exact hall y hmem
  · subst hyeq
    obtain ⟨m0, hfind, hcore, hdisj⟩ := hall x hx
    refine ⟨m0, hfind, hcore, Or.inr ⟨?_, m, hm, hsig.symm, rfl, hmt⟩⟩
    rcases hdisj with heq | ⟨hf, _⟩
    · rw [← heq]; exact hxf
    · exact hf

theorem find?_sig_first {α : Type} (m : Match α) (pre post : List (Match α))
    (hpre : ∀ x ∈ pre, ¬ sig x = sig m) :
    (pre ++ m :: post).find? (fun x => decide (sig x = sig m)) = some m := by
  induction pre with
  | nil =>
    rw [List.nil_append, List.find?_cons]
    simp
  | cons x xs ih =>
    rw [List.cons_append, List.find?_cons]
    have hx : decide (sig x = sig m) = false := by
      simp only [decide_eq_false_iff_not]
      exact hpre x (List.mem_cons_self x xs)
    rw [hx]
    exact ih (fun z hz => hpre z (List.mem_cons_of_mem x hz))

theorem dedupGo_sorted {α : Type} (pending : List (Match α)) :
    ∀ acc : List (Match α),
      (pending.map (fun x => x.kickoff)).Pairwise (· ≤ ·) →
      (acc.map (fun x => x.kickoff)).Pairwise (· ≤ ·) →
      (∀ a ∈ acc.map (fun x => x.kickoff),
        ∀ b ∈ pending.map (fun x => x.kickoff), a ≤ b) →
      ((dedupGo acc pending).map (fun x => x.kickoff)).Pairwise (· ≤ ·) := by
  induction pending with
  | nil => intro acc _ hacc _; exact hacc
  | cons m rest ih =>
    intro acc hpend hacc hcross
    simp only [List.map_cons, List.pairwise_cons] at hpend
    obtain ⟨hm_le, hrest⟩ := hpend
    by_cases hmem : sig m ∈ acc.map sig
    · simp only [dedupGo, if_pos hmem]
      apply ih (updateFirst m acc) hrest
      · rw [updateFirst_map_kickoff]; exact hacc
      · rw [updateFirst_map_kickoff]
        intro a ha b hb
        exact hcross a ha b
          (by simp only [List.map_cons]; exact List.mem_cons_of_mem _ hb)
    · simp only [dedupGo, if_neg hmem]
      apply ih (acc ++ [m]) hrest
      · rw [List.map_append, List.pairwise_append]
        refine ⟨hacc, by simp, ?_⟩
        intro a ha b hb
        simp only [List.map_cons, List.map_nil, List.mem_singleton] at hb
        subst hb
        exact hcross a ha m.kickoff
          (by simp only [List.map_cons]; exact List.mem_cons_self _ _)
      · intro a ha b hb
        rw [List.map_append] at ha
        rcases List.mem_append.mp ha with h1 | h2
        · exact hcross a h1 b
            (by simp only [List.map_cons]; exact List.mem_cons_of_mem _ hb)
        · simp only [List.map_cons, List.map_nil, List.mem_singleton] at h2
          subst h2
          exact hm_le b hb

theorem dedupGo_spec {α : Type} (L : List (Match α)) :
    ∀ pending acc processed : List (Match α),
      L = processed ++ pending →
      (∀ s, s ∈ processed.map sig ↔ s ∈ acc.map sig) →
      (acc.map sig).Nodup →
      (∀ x ∈ acc, DedupOrigin L x) →
      ((dedupGo acc pending).map sig).Nodup
        ∧ (∀ x ∈ dedupGo acc pending, DedupOrigin L x)
        ∧ (∀ s, s ∈ L.map sig ↔ s ∈ (dedupGo acc pending).map sig) := by
  intro pending
  induction pending with
  | nil =>
    intro acc processed hL hiff hnd hall
    refine ⟨hnd, hall, ?_⟩
    intro s
    rw [hL, List.append_nil]
    exact hiff s
  | cons m rest ih =>
    intro acc processed hL hiff hnd hall
    by_cases hmem : sig m ∈ acc.map sig
    · simp only [dedupGo, if_pos hmem]
      refine ih (updateFirst m acc) (processed ++ [m]) ?_ ?_ ?_ ?_
      · rw [hL, List.append_cons]
      · intro s
        rw [updateFirst_map_sig, List.map_append, List.mem_append]
        simp only [List.map_cons, List.map_nil, List.mem_singleton]
        constructor
        · rintro (h1 | h2)
          · exact (hiff s).mp h1
          · exact h2 ▸ hmem
        · intro hacc
          exact Or.inl ((hiff s).mpr hacc)
      · rw [updateFirst_map_sig]; exact hnd
      · refine updateFirst_origin L m ?_ acc hall
        rw [hL]
        exact List.mem_append.mpr (Or.inr (List.mem_cons_self m rest))
    · simp only [dedupGo, if_neg hmem]
      refine ih (acc ++ [m]) (processed ++ [m]) ?_ ?_ ?_ ?_
      · rw [hL, List.append_cons]
      · intro s
        rw [List.map_append, List.map_append, List.mem_append, List.mem_append]
        exact or_congr (hiff s) Iff.rfl
      · rw [List.map_append, List.nodup_append]
        refine ⟨hnd, by simp, ?_⟩
        simp only [List.map_cons, List.map_nil, List.disjoint_singleton]
        exact hmem
      · intro x hx
        rcases List.mem_append.mp hx with h1 | h2
        · exact hall x h1
        · rw [List.mem_singleton] at h2
          subst h2
          refine ⟨x, ?_, ⟨rfl, rfl, rfl, rfl⟩, Or.inl rfl⟩
          rw [hL]
          apply find?_sig_first
          intro z hz hzsig
          exact hmem ((hiff (sig x)).mp (hzsig ▸ List.mem_map_of_mem sig hz))

/-- C9: `_deduplicate_matches` returns a list sorted by kickoff ascending
in which no two matches share the signature (kickoff, normalized home team,
normalized away team); every input signature is still present, and each
output match is the first match with its signature in the kickoff-sorted
input, all fields unchanged except that `competition` may be replaced by a
duplicate's truthy competition when the kept match's own competition was
falsy. -/
theorem deduplicate_matches_spec {α : Type} (ms : List (Match α)) :
    DedupSpecStatement ms := by
  have htrans : ∀ a b c : Match α, decide (a.kickoff ≤ b.kickoff) = true →
      decide (b.kickoff ≤ c.kickoff) = true →
      decide (a.kickoff ≤ c.kickoff) = true := by
    intro a b c hab hbc
    rw [decide_eq_true_eq] at hab hbc ⊢
    exact le_trans hab hbc
  have htotal : ∀ a b : Match α,
      (decide (a.kickoff ≤ b.kickoff) || decide (b.kickoff ≤ a.kickoff)) = true := by
    intro a b
    rcases le_total a.kickoff b.kickoff with h | h <;> simp [h]
  have hsort := @List.sorted_mergeSort (Match α)
    (fun a b => decide (a.kickoff ≤ b.kickoff)) htrans htotal ms
  have hperm := List.mergeSort_perm ms
    (fun a b => decide (a.kickoff ≤ b.kickoff))
  obtain ⟨hnd, horigin, hcover⟩ := dedupGo_spec
    (ms.mergeSort (fun a b => decide (a.kickoff ≤ b.kickoff)))
    (ms.mergeSort (fun a b => decide (a.kickoff ≤ b.kickoff)))
    [] [] (List.nil_append _).symm (fun s => Iff.rfl) List.nodup_nil
    (fun x hx => absurd hx (List.not_mem_nil x))
  have hkick : ((ms.mergeSort
      (fun a b => decide (a.kickoff ≤ b.kickoff))).map
        (fun x => x.kickoff)).Pairwise (· ≤ ·) :=
    List.pairwise_map.mpr (hsort.imp (fun h => by simpa using h))
  refine ⟨?_, hnd, horigin, ?_⟩
  · exact List.pairwise_map.mp
      (dedupGo_sorted _ [] hkick (by simp) (by simp))
  · intro m hm
    exact (hcover (sig m)).mp
      (List.mem_map_of_mem sig (hperm.mem_iff.mpr hm))

theorem deduplicate_matches_spec_witness :
    DedupSpecStatement
      [(⟨0, "A", "B", none, ()⟩ : Match Unit), ⟨0, "A", "B", some "Cup", ()⟩] :=
  deduplicate_matches_spec
    [(⟨0, "A", "B", none, ()⟩ : Match Unit), ⟨0, "A", "B", some "Cup", ()⟩]

/-- C8: `normalize_name` is idempotent, and its output consists only of
lowercase ASCII letters, digits and single interior spaces, with no leading
or trailing space. -/
theorem normalize_name_idempotent (s : String) :
    normalize_name (normalize_name s) = normalize_name s
      ∧ WellFormedName (normalize_name s).data := by
  have hspec := normalizeNameChars_spec s.data
  constructor
  · show String.mk (normalizeNameChars (String.mk (normalizeNameChars s.data)).data)
      = String.mk (normalizeNameChars s.data)
    exact congrArg String.mk
      (normalizeNameChars_fixed (normalizeNameChars s.data) hspec.1 hspec.2.1 hspec.2.2)
  · exact hspec.1

/-- C10: on every `DirectComparisonSummary`, `usc_win_pct` and
`opponent_win_pct` return `None` exactly when `matches_played ≤ 0` (so the
division is only performed with a non-zero denominator), and
`usc_losses = opponent_wins` while `opponent_losses = usc_wins`. -/
theorem direct_comparison_summary_safe (s : DirectComparisonSummary) :
    (s.usc_win_pct = none ↔ s.matches_played ≤ 0)
      ∧ (s.opponent_win_pct = none ↔ s.matches_played ≤ 0)
      ∧ s.usc_losses = s.opponent_wins
      ∧ s.opponent_losses = s.usc_wins := by
  refine ⟨?_, ?_, rfl, rfl⟩
  · unfold DirectComparisonSummary.usc_win_pct
    split <;> simp_all
  · unfold DirectComparisonSummary.opponent_win_pct
    split <;> simp_all

end USC
